import Mathlib

set_option maxHeartbeats 1000000

/-!
Verification of the IR linked-list engine and the template-to-IR lowering pass
(packages/compiler/src/render3/view/pipeline/ir/linked_list.ts).

The intrusive doubly-linked list is shallowly embedded as follows: nodes are
identified by natural-number ids; the mutable prev/next fields of every node
live in a heap (Nat → Links); a LinkedList value holds the head/tail fields of
one list object.  Each TypeScript method becomes a Lean function from (heap,
list) to (heap, list), performing its field reads and writes in exactly the
order of the source.  Methods that can throw return Option (none = the thrown
AssertionError).  Loops take an explicit fuel argument.
-/

structure Links where
  prev : Option Nat
  next : Option Nat
deriving DecidableEq, Repr

abbrev Heap := Nat → Links

structure LinkedList where
  head : Option Nat
  tail : Option Nat
deriving DecidableEq, Repr

/-- Write the prev field of node n (node.prev = v). -/
def LinkedList.setPrev (h : Heap) (n : Nat) (v : Option Nat) : Heap :=
  fun m => if m = n then { prev := v, next := (h n).next } else h m

/-- Write the next field of node n (node.next = v). -/
def LinkedList.setNext (h : Heap) (n : Nat) (v : Option Nat) : Heap :=
  fun m => if m = n then { prev := (h n).prev, next := v } else h m

/-- Overwrite both link fields of node n. -/
def LinkedList.setLinks (h : Heap) (n : Nat) (L : Links) : Heap :=
  fun m => if m = n then L else h m

/-- LinkedList.append(node). -/
def LinkedList.append (h : Heap) (ll : LinkedList) (n : Nat) : Heap × LinkedList :=
  match ll.tail with
  | some t =>
    let h1 := LinkedList.setPrev h n (some t)
    let h2 := LinkedList.setNext h1 t (some n)
    (h2, { ll with tail := some n })
  | none => (h, { head := some n, tail := some n })

/-- LinkedList.insertBefore(before, insert). -/
def LinkedList.insertBefore (h : Heap) (ll : LinkedList) (before insert : Nat) :
    Heap × LinkedList :=
  let ll1 := if ll.head = some before then { ll with head := some insert } else ll
  let h1 := LinkedList.setPrev h insert ((h before).prev)
  let h2 := LinkedList.setNext h1 insert (some before)
  let h3 :=
    match (h2 before).prev with
    | some p => LinkedList.setNext h2 p (some insert)
    | none => h2
  let h4 := LinkedList.setPrev h3 before (some insert)
  (h4, ll1)

/-- LinkedList.insertAfter(after, insert). -/
def LinkedList.insertAfter (h : Heap) (ll : LinkedList) (a insert : Nat) :
    Heap × LinkedList :=
  let ll1 := if ll.tail = some a then { ll with tail := some insert } else ll
  let h1 := LinkedList.setPrev h insert (some a)
  let h2 := LinkedList.setNext h1 insert ((h1 a).next)
  let h3 :=
    match (h2 a).next with
    | some q => LinkedList.setPrev h2 q (some insert)
    | none => h2
  let h4 := LinkedList.setNext h3 a (some insert)
  (h4, ll1)

/-- LinkedList.remove(node).  Returns none when the source throws an
AssertionError; otherwise some (heap, list, former node.next). -/
def LinkedList.remove (h : Heap) (ll : LinkedList) (n : Nat) :
    Option (Heap × LinkedList × Option Nat) :=
  let next := (h n).next
  if ll.head = some n then
    let ll1 : LinkedList := { ll with head := (h n).next }
    let ll2 : LinkedList := if ll1.tail = some n then { ll1 with tail := (h n).next } else ll1
    let h1 := LinkedList.setNext (LinkedList.setPrev h n none) n none
    some (h1, ll2, next)
  else
    match (h n).prev with
    | some p =>
      let h1 := LinkedList.setNext h p ((h n).next)
      if ll.tail = some n then
        let ll1 : LinkedList := { ll with tail := (h1 n).prev }
        let h2 := LinkedList.setNext (LinkedList.setPrev h1 n none) n none
        some (h2, ll1, next)
      else
        match (h1 n).next with
        | some q =>
          let h2 := LinkedList.setPrev h1 q ((h1 n).prev)
          let h3 := LinkedList.setNext (LinkedList.setPrev h2 n none) n none
          some (h3, ll, next)
        | none => none
    | none => none

/-- LinkedList.prependList(list): splice the other list before this one. -/
def LinkedList.prependList (h : Heap) (this other : LinkedList) : Heap × LinkedList :=
  match other.tail, other.head with
  | none, _ => (h, this)
  | some _, none => (h, this)
  | some ot, some _ =>
    match this.head with
    | none => (h, { head := other.head, tail := other.tail })
    | some th =>
      let h1 := LinkedList.setPrev h th (some ot)
      let h2 := LinkedList.setNext h1 ot (some th)
      (h2, { this with head := other.head })

/-- The per-node traversal of applyTransform: the visit hook is a function from
(heap, list, node) to (returned node, heap, list); after each call the links
around the returned node are re-established and iteration continues from its
next link, read after relinking. -/
def LinkedList.applyVisit (visit : Heap → LinkedList → Nat → Nat × Heap × LinkedList) :
    Nat → Heap → LinkedList → Option Nat → Heap × LinkedList
  | 0, h, ll, _ => (h, ll)
  | _, h, ll, none => (h, ll)
  | fuel + 1, h, ll, some n0 =>
    let r := visit h ll n0
    let n := r.1
    let h1 := r.2.1
    let ll1 := r.2.2
    let s2 : Heap × LinkedList :=
      match (h1 n).prev with
      | some p => (LinkedList.setNext h1 p (some n), ll1)
      | none => (h1, { ll1 with head := some n })
    let s3 : Heap × LinkedList :=
      match (s2.1 n).next with
      | some q => (LinkedList.setPrev s2.1 q (some n), s2.2)
      | none => (s2.1, { s2.2 with tail := some n })
    LinkedList.applyVisit visit fuel s3.1 s3.2 ((s3.1 n).next)

/-- A Transform value: optional list-level hook and optional per-node hook
(the finalize hook takes no list argument and has no effect on the state
modelled here). -/
structure Transform where
  visitList : Option (Heap → LinkedList → Heap × LinkedList)
  visit : Option (Heap → LinkedList → Nat → Nat × Heap × LinkedList)

/-- LinkedList.applyTransform(transform). -/
def LinkedList.applyTransform (t : Transform) (fuel : Nat) (h : Heap) (ll : LinkedList) :
    Heap × LinkedList :=
  let s1 : Heap × LinkedList :=
    match t.visitList with
    | some f => f h ll
    | none => (h, ll)
  match t.visit with
  | some v => LinkedList.applyVisit v fuel s1.1 s1.2 s1.2.head
  | none => s1

/-- The inner for-loop of sortSubset: scan from pos toward stop, looking for
the first already-sorted node that the removed node compares strictly less
than; insert it there if found.  Returns (heap, list, tmpStart, inserted). -/
def LinkedList.scanPos (cmp : Nat → Nat → Int) (node : Nat) (stop : Option Nat)
    (tmpStart : Nat) :
    Nat → Heap → LinkedList → Option Nat → Option (Heap × LinkedList × Nat × Bool)
  | 0, _, _, _ => none
  | sfuel + 1, h, ll, pos? =>
    if pos? = stop then some (h, ll, tmpStart, false)
    else
      match pos? with
      | none => none
      | some pos =>
        if cmp node pos < 0 then
          let r := LinkedList.insertBefore h ll pos node
          some (r.1, r.2, if pos = tmpStart then node else tmpStart, true)
        else
          LinkedList.scanPos cmp node stop tmpStart sfuel h ll ((h pos).next)

/-- The do/while loop of sortSubset.  next? is the node to process this
iteration (the source's node = next step); sfuel bounds each inner scan. -/
def LinkedList.sortLoop (cmp : Nat → Nat → Int) (endN : Nat) (sfuel : Nat) :
    Nat → Heap → LinkedList → Nat → Nat → Option Nat →
    Option (Heap × LinkedList × Nat × Nat)
  | 0, _, _, _, _, _ => none
  | fuel + 1, h, ll, tmpStart, tmpEnd, next? =>
    match next? with
    | none => none
    | some node =>
      let next' := (h node).next
      match LinkedList.remove h ll node with
      | none => none
      | some (h1, ll1, _) =>
        match LinkedList.scanPos cmp node next' tmpStart sfuel h1 ll1 (some tmpStart) with
        | none => none
        | some (h2, ll2, tmpStart', inserted) =>
          let s3 : Heap × LinkedList × Nat :=
            if inserted then (h2, ll2, tmpEnd)
            else
              match next' with
              | some nx =>
                let r := LinkedList.insertBefore h2 ll2 nx node
                (r.1, r.2, node)
              | none =>
                let r := LinkedList.append h2 ll2 node
                (r.1, r.2, node)
          if node = endN then some (s3.1, s3.2.1, tmpStart', s3.2.2)
          else LinkedList.sortLoop cmp endN sfuel fuel s3.1 s3.2.1 tmpStart' s3.2.2 next'

/-- LinkedList.sortSubset(start, end, cmp). -/
def LinkedList.sortSubset (cmp : Nat → Nat → Int) (h : Heap) (ll : LinkedList)
    (start endN : Nat) (sfuel fuel : Nat) : Option (Heap × LinkedList × Nat × Nat) :=
  if start = endN then some (h, ll, start, endN)
  else LinkedList.sortLoop cmp endN sfuel fuel h ll start start ((h start).next)

/-- Traverse next-links from s until e (inclusive); none on fuel exhaustion or
a dangling link before reaching e. -/
def LinkedList.walkTo (h : Heap) (e : Nat) : Nat → Nat → Option (List Nat)
  | 0, _ => none
  | fuel + 1, n =>
    if n = e then some [n]
    else
      match (h n).next with
      | none => none
      | some m => (LinkedList.walkTo h e fuel m).map (n :: ·)

/-!
Embedding of the lowering pass (TemplateToIrConverter).  The converter only
ever appends to its create/update lists, so those lists are represented by
their traversal sequences (Lean Lists).  The collaborators that live outside
this file's source (Scope, ValuePreprocessor, AttributeMarker and the concrete
IR node payload classes) are modelled from the spec, as noted on each
definition.
-/

/-- Source expression AST: the shapes visitBoundText distinguishes — an
ASTWithSource envelope, an Interpolation (literal separator strings plus
sub-expressions), or any other expression kind (opaque here). -/
inductive AstExpr where
  | interpolation (strings : List String) (expressions : List AstExpr)
  | withSource (inner : AstExpr)
  | otherExpr (k : Nat)

/-- A static attribute of an element (TextAttribute: name, value). -/
structure TmplAttr where
  name : String
  value : String
deriving DecidableEq, Repr

/-- A bound input of an element (BoundAttribute: name, value expression). -/
structure TmplInput where
  name : String
  value : AstExpr

/-- A declared reference (name, value). -/
structure TmplRef where
  name : String
  value : String
deriving DecidableEq, Repr

/-- A declared template-local variable (name, value). -/
structure TmplVar where
  name : String
  value : String
deriving DecidableEq, Repr

/-- Source template AST node kinds handled by the converter; every node kind
whose visit method only throws "Method not implemented." is collapsed into
unsupported. -/
inductive TmplNode where
  | element (name : String) (attributes : List TmplAttr) (inputs : List TmplInput)
      (references : List TmplRef) (children : List TmplNode)
  | text (value : String)
  | boundText (value : AstExpr)
  | template (tagName : String) (vars : List TmplVar) (references : List TmplRef)
      (children : List TmplNode)
  | unsupported (k : Nat)

/-- Modelled from the spec: the value produced by the external expression
preprocessor (ValuePreprocessor.process) for one source expression; opaque
payload. -/
structure IrExprV where
  code : Nat
deriving DecidableEq, Repr

/-- Modelled from the spec: a Reference handle minted by Scope.recordReference,
carrying the recorded name and owning id. -/
structure IrRef where
  name : String
  owner : Nat
deriving DecidableEq, Repr

/-- Modelled from the spec: one entry of the flattened attribute sequence of an
element-start node — either a literal string (a static name or value, or a
bound input's name) or the AttributeMarker.Bindings marker value. -/
inductive AttrEntry where
  | lit (s : String)
  | bindingsMarker
deriving DecidableEq, Repr

/-- Modelled from the spec: the update-list IR node variants the lowering pass
emits — property-binding (target id, name, bound expression) and
text-interpolation (id, lowered sub-expressions, literal separator strings). -/
inductive UpNode where
  | property (target : Nat) (name : String) (expr : IrExprV)
  | textInterpolate (id : Nat) (expressions : List IrExprV) (strings : List String)
deriving DecidableEq, Repr

/-- Modelled from the spec: the create-list IR node variants the lowering pass
emits — element-start (id, tag, optional flattened attribute sequence,
optional references), element-end (id), text (id, optional static value) and
embedded-template (id, tag, nested create/update lists, optional references). -/
inductive CrNode where
  | elementStart (id : Nat) (tag : String) (attrs : Option (List AttrEntry))
      (refs : Option (List IrRef))
  | elementEnd (id : Nat)
  | text (id : Nat) (value : Option String)
  | template (id : Nat) (tag : String) (create : List CrNode) (update : List UpNode)
      (refs : Option (List IrRef))

/-- The state of one TemplateToIrConverter instance: its create list, its
update list, and its scope.  Modelled from the spec: the Scope collaborator is
reduced to its id-allocation counter (allocateId mints 0, 1, 2, ... within a
scope; a child scope's counter starts fresh; the scope's reference/variable
storage is out of scope and recordReference just mints an IrRef handle). -/
structure ConvSt where
  create : List CrNode
  update : List UpNode
  scope : Nat

/-- Modelled from the spec: Scope.recordReference(name, ownerId, value)
returns a Reference handle for (name, ownerId). -/
def recordReference (name : String) (owner : Nat) : IrRef := ⟨name, owner⟩

/-- The flattened attribute sequence built by visitElement: static name/value
pairs first, then (if any bindings exist) the marker value, then each bound
input's name. -/
def elementAttrs (attributes : List TmplAttr) (inputs : List TmplInput) :
    Option (List AttrEntry) :=
  if attributes.length > 0 ∨ inputs.length > 0 then
    some (((attributes.map fun a => [AttrEntry.lit a.name, AttrEntry.lit a.value]).flatten)
      ++ (if inputs.length > 0 then [AttrEntry.bindingsMarker] else [])
      ++ (inputs.map fun i => AttrEntry.lit i.name))
  else none

/-- The reference handles attached to an element-start or embedded-template
node: null when the source node declares no references. -/
def elementRefs (references : List TmplRef) (id : Nat) : Option (List IrRef) :=
  if references.length > 0 then some (references.map fun r => recordReference r.name id)
  else none

/-- Unwrap a wrapping ASTWithSource envelope, once, if present. -/
def unwrapTop (v : AstExpr) : AstExpr :=
  match v with
  | .withSource inner => inner
  | _ => v

mutual

/-- One TmplNode visit of TemplateToIrConverter; pp is the external
ValuePreprocessor.process function.  Thrown errors carry the converter state
at the throw point (mutations made before the throw are not rolled back). -/
def visitNode (pp : AstExpr → IrExprV) (st : ConvSt) :
    TmplNode → Except (String × ConvSt) ConvSt
  | .element name attributes inputs references children =>
    let id := st.scope
    let refs := elementRefs references id
    let props := inputs.map fun i => UpNode.property id i.name (pp i.value)
    let st1 : ConvSt :=
      { create := st.create ++ [CrNode.elementStart id name (elementAttrs attributes inputs) refs],
        update := st.update ++ props,
        scope := st.scope + 1 }
    match visitChildren pp st1 children with
    | .error e => .error e
    | .ok st2 => .ok { st2 with create := st2.create ++ [CrNode.elementEnd id] }
  | .text v =>
    .ok { st with create := st.create ++ [CrNode.text st.scope (some v)], scope := st.scope + 1 }
  | .boundText v =>
    let id := st.scope
    let st1 : ConvSt :=
      { st with create := st.create ++ [CrNode.text id none], scope := st.scope + 1 }
    match unwrapTop v with
    | .interpolation strs exprs =>
      .ok { st1 with update := st1.update ++ [UpNode.textInterpolate id (exprs.map pp) strs] }
    | _ => .error ("BoundText is not an interpolation expression?", st1)
  | .template tagName _vars references children =>
    let id := st.scope
    match visitChildren pp { create := [], update := [], scope := 0 } children with
    | .error e => .error e
    | .ok child =>
      let refs := elementRefs references id
      let view := CrNode.template id (if tagName ≠ "" then tagName else "ng-template")
        child.create child.update refs
      .ok { st with create := st.create ++ [view], scope := st.scope + 1 }
  | .unsupported _ => .error ("Method not implemented.", st)

/-- Visit a list of child nodes in order (tmpl.visitAll). -/
def visitChildren (pp : AstExpr → IrExprV) (st : ConvSt) :
    List TmplNode → Except (String × ConvSt) ConvSt
  | [] => .ok st
  | n :: rest =>
    match visitNode pp st n with
    | .error e => .error e
    | .ok st1 => visitChildren pp st1 rest

end

/-- TemplateToIrConverter.parseRoot: run a fresh converter (root scope, empty
lists) over the top-level template nodes. -/
def parseRoot (pp : AstExpr → IrExprV) (input : List TmplNode) :
    Except (String × ConvSt) ConvSt :=
  visitChildren pp { create := [], update := [], scope := 0 } input

/-!
The list invariant.  `Represents h ll l` says the list object ll, over heap h,
holds exactly the node chain l: head/tail name the ends, nodes are distinct,
the head's prev and the tail's next are null, and every adjacent pair is
doubly linked.
-/

def chainRel (h : Heap) (a b : Nat) : Prop :=
  (h a).next = some b ∧ (h b).prev = some a

def Represents (h : Heap) (ll : LinkedList) (l : List Nat) : Prop :=
  ll.head = l.head? ∧ ll.tail = l.getLast? ∧ l.Nodup ∧
  (∀ a, l.head? = some a → (h a).prev = none) ∧
  (∀ a, l.getLast? = some a → (h a).next = none) ∧
  List.Chain' (chainRel h) l

instance chainRelDecidable (h : Heap) (a b : Nat) : Decidable (chainRel h a b) :=
  inferInstanceAs (Decidable ((h a).next = some b ∧ (h b).prev = some a))

/-!
Abstract model of the insertion step performed by sortSubset's inner loop: the
removed node is placed immediately before the first already-sorted node it
compares strictly less than, and at the end of the sorted segment otherwise.
-/

def ins (cmp : Nat → Nat → Int) (u : Nat) : List Nat → List Nat
  | [] => [u]
  | x :: xs => if cmp u x < 0 then u :: x :: xs else x :: ins cmp u xs

def insFold (cmp : Nat → Nat → Int) (S U : List Nat) : List Nat :=
  U.foldl (fun acc u => ins cmp u acc) S

/-- The visit hook of C4: for each visited node it returns a newly constructed
node f n whose prev/next links claim the old node's position. -/
def replacementHook (f : Nat → Nat) : Heap → LinkedList → Nat → Nat × Heap × LinkedList :=
  fun h ll n => (f n, LinkedList.setLinks h (f n) (h n), ll)

/-!
Concrete instances used by the examples below: a three-node chain 10, 11, 12
and comparators on it; a pair of disjoint two-node chains for prependList; a
two-node chain with a fresh replacement map for applyTransform.
-/

/-- The chain 10 before 11 before 12. -/
def cexHeap : Heap := fun n =>
  if n = 10 then ⟨none, some 11⟩
  else if n = 11 then ⟨some 10, some 12⟩
  else if n = 12 then ⟨some 11, none⟩
  else ⟨none, none⟩

def cexLL : LinkedList := ⟨some 10, some 12⟩

/-- A total-order comparator keyed on 10 being biggest: 11 and 12 tie. -/
def cexCmp : Nat → Nat → Int :=
  fun a b => (if a = 10 then 2 else 1) - (if b = 10 then 2 else 1)

/-- A strict order in which the only strict relation is 12 before 10; 11 is
incomparable to both (a strict order that is not a strict weak order). -/
def cexCmpTie : Nat → Nat → Int :=
  fun a b => if a = 12 ∧ b = 10 then -1 else 0

/-- Heap of the C6 counterexample: node 0 is the head, with a null next link,
while the tail field points at node 1. -/
def c6Heap : Heap := fun n =>
  if n = 0 then ⟨none, none⟩ else if n = 1 then ⟨some 0, none⟩ else ⟨none, none⟩

def c6LL : LinkedList := ⟨some 0, some 1⟩

/-- Two disjoint chains on one heap: 0 before 1, and 5 before 6. -/
def c7Heap : Heap := fun n =>
  if n = 0 then ⟨none, some 1⟩ else if n = 1 then ⟨some 0, none⟩
  else if n = 5 then ⟨none, some 6⟩ else if n = 6 then ⟨some 5, none⟩
  else ⟨none, none⟩

def c7A : LinkedList := ⟨some 0, some 1⟩

def c7B : LinkedList := ⟨some 5, some 6⟩

/-- Chain 0 before 1 for the applyTransform example. -/
def c4Heap : Heap := fun n =>
  if n = 0 then ⟨none, some 1⟩ else if n = 1 then ⟨some 0, none⟩ else ⟨none, none⟩

def c4LL : LinkedList := ⟨some 0, some 1⟩

/-- All-fresh heap and the two-step append state for the C1 run. -/
def c1H0 : Heap := fun _ => ⟨none, none⟩

def c1St1 : Heap × LinkedList := LinkedList.append c1H0 ⟨none, none⟩ 0

def c1St2 : Heap × LinkedList := LinkedList.append c1St1.1 c1St1.2 1

/-- A concrete preprocessor and the C3 example template. -/
def c3pp : AstExpr → IrExprV := fun _ => ⟨0⟩

def c3Template : List TmplNode :=
  [TmplNode.element "div" [⟨"class", "a"⟩] [⟨"id", AstExpr.otherExpr 0⟩] []
    [TmplNode.text "hi"]]

theorem sp_eq (h : Heap) (n : Nat) (v : Option Nat) :
    LinkedList.setPrev h n v n = ⟨v, (h n).next⟩ := by
  simp [LinkedList.setPrev]

theorem sp_ne (h : Heap) (n : Nat) (v : Option Nat) (m : Nat) (hm : m ≠ n) :
    LinkedList.setPrev h n v m = h m := by
  simp [LinkedList.setPrev, hm]

theorem sn_eq (h : Heap) (n : Nat) (v : Option Nat) :
    LinkedList.setNext h n v n = ⟨(h n).prev, v⟩ := by
  simp [LinkedList.setNext]

theorem sn_ne (h : Heap) (n : Nat) (v : Option Nat) (m : Nat) (hm : m ≠ n) :
    LinkedList.setNext h n v m = h m := by
  simp [LinkedList.setNext, hm]

theorem sl_eq (h : Heap) (n : Nat) (L : Links) : LinkedList.setLinks h n L n = L := by
  simp [LinkedList.setLinks]

theorem sl_ne (h : Heap) (n : Nat) (L : Links) (m : Nat) (hm : m ≠ n) :
    LinkedList.setLinks h n L m = h m := by
  simp [LinkedList.setLinks, hm]

theorem mem_of_head? {l : List Nat} {a : Nat} (hh : l.head? = some a) : a ∈ l := by
  cases l with
  | nil => simp at hh
  | cons b rest => simp at hh; simp [hh]

theorem mem_of_getLast? {l : List Nat} {a : Nat} (hl : l.getLast? = some a) : a ∈ l := by
  induction l with
  | nil => simp at hl
  | cons b rest ih =>
    cases rest with
    | nil => simp at hl; simp [hl]
    | cons c rest' =>
      rw [List.getLast?_cons_cons] at hl
      exact List.mem_cons_of_mem b (ih hl)

theorem head?_append_left {l1 : List Nat} (l2 : List Nat) (hne : l1 ≠ []) :
    (l1 ++ l2).head? = l1.head? := by
  cases l1 with
  | nil => exact absurd rfl hne
  | cons a rest => rfl

theorem getLast?_append_right (l1 l2 : List Nat) (hne : l2 ≠ []) :
    (l1 ++ l2).getLast? = l2.getLast? := by
  induction l1 with
  | nil => rfl
  | cons a rest ih =>
    cases rest with
    | nil =>
      cases l2 with
      | nil => exact absurd rfl hne
      | cons b r2 => simp [List.getLast?_cons_cons]
    | cons c rest' => rw [List.cons_append, List.cons_append, List.getLast?_cons_cons]; exact ih

theorem getLast?_concat_nat (l : List Nat) (a : Nat) : (l ++ [a]).getLast? = some a := by
  rw [getLast?_append_right l _ (by simp)]; rfl

/-- The chain predicate only reads the next field of non-last nodes and the
prev field of non-head nodes. -/
theorem chain'_heap_congr {h h' : Heap} :
    ∀ (l : List Nat),
      (∀ a ∈ l.dropLast, (h' a).next = (h a).next) →
      (∀ a ∈ l.tail, (h' a).prev = (h a).prev) →
      List.Chain' (chainRel h) l → List.Chain' (chainRel h') l := by
  intro l
  induction l with
  | nil => intro _ _ _; exact List.chain'_nil
  | cons a rest ih =>
    cases rest with
    | nil => intro _ _ _; exact List.chain'_singleton a
    | cons b rest' =>
      intro hn hp hc
      rw [List.chain'_cons] at hc ⊢
      have hdl : (a :: b :: rest').dropLast = a :: (b :: rest').dropLast := by
        simp [List.dropLast]
      constructor
      · constructor
        · rw [hn a (by rw [hdl]; exact List.mem_cons_self a _)]; exact hc.1.1
        · rw [hp b (List.mem_cons_self b rest')]; exact hc.1.2
      · exact ih
          (fun x hx => hn x (by rw [hdl]; exact List.mem_cons_of_mem a hx))
          (fun x hx => hp x (List.mem_cons_of_mem b hx))
          hc.2

theorem Represents.head_eq {h : Heap} {ll : LinkedList} {l : List Nat}
    (hr : Represents h ll l) : ll.head = l.head? := hr.1

theorem Represents.tail_eq {h : Heap} {ll : LinkedList} {l : List Nat}
    (hr : Represents h ll l) : ll.tail = l.getLast? := hr.2.1

theorem Represents.nodup {h : Heap} {ll : LinkedList} {l : List Nat}
    (hr : Represents h ll l) : l.Nodup := hr.2.2.1

theorem Represents.prev_head {h : Heap} {ll : LinkedList} {l : List Nat}
    (hr : Represents h ll l) : ∀ a, l.head? = some a → (h a).prev = none := hr.2.2.2.1

theorem Represents.next_last {h : Heap} {ll : LinkedList} {l : List Nat}
    (hr : Represents h ll l) : ∀ a, l.getLast? = some a → (h a).next = none := hr.2.2.2.2.1

theorem Represents.chain {h : Heap} {ll : LinkedList} {l : List Nat}
    (hr : Represents h ll l) : List.Chain' (chainRel h) l := hr.2.2.2.2.2

/-- In a represented list, a node's next link is the head of what follows it. -/
theorem rep_next {h : Heap} {ll : LinkedList} {X Y : List Nat} {a : Nat}
    (hr : Represents h ll (X ++ a :: Y)) : (h a).next = Y.head? := by
  cases Y with
  | nil => exact hr.next_last a (getLast?_concat_nat X a)
  | cons b Y' =>
    have hc := hr.chain
    rw [List.chain'_append] at hc
    have h2 := hc.2.1
    rw [List.chain'_cons] at h2
    rw [h2.1.1]
    rfl

/-- In a represented list, a node's prev link is the last of what precedes it. -/
theorem rep_prev {h : Heap} {ll : LinkedList} {X Y : List Nat} {a : Nat}
    (hr : Represents h ll (X ++ a :: Y)) : (h a).prev = X.getLast? := by
  cases X with
  | nil => exact hr.prev_head a rfl
  | cons x X' =>
    have hne : x :: X' ≠ ([] : List Nat) := by simp
    obtain ⟨p, hp⟩ : ∃ p, (x :: X').getLast? = some p :=
      ⟨(x :: X').getLast hne, List.getLast?_eq_getLast_of_ne_nil hne⟩
    have hc := hr.chain
    rw [List.chain'_append] at hc
    have hb := hc.2.2 p hp a (by rfl)
    rw [hb.2, hp]

theorem nodup_mid {X Y : List Nat} {n : Nat} (hnd : (X ++ n :: Y).Nodup) :
    n ∉ X ∧ n ∉ Y ∧ (X ++ Y).Nodup := by
  rw [List.nodup_append] at hnd
  obtain ⟨hX, hnY, hdisj⟩ := hnd
  rw [List.nodup_cons] at hnY
  refine ⟨fun hmem => hdisj hmem (List.mem_cons_self n Y), hnY.1, ?_⟩
  rw [List.nodup_append]
  exact ⟨hX, hnY.2, fun a ha ha' => hdisj ha (List.mem_cons_of_mem n ha')⟩

/-- For a member node, being pointed at by head is the same as being first. -/
theorem head_eq_some_iff {h : Heap} {ll : LinkedList} {X Y : List Nat} {n : Nat}
    (hr : Represents h ll (X ++ n :: Y)) : ll.head = some n ↔ X = [] := by
  rw [hr.head_eq]
  cases X with
  | nil => simp
  | cons x X' =>
    have hnX : n ∉ x :: X' := (nodup_mid hr.nodup).1
    simp only [List.cons_append, List.head?_cons]
    constructor
    · intro hx
      rw [Option.some_inj] at hx
      subst hx
      exact absurd (List.mem_cons_self x X') hnX
    · intro hx; exact absurd hx (by simp)

/-- For a member node, being pointed at by tail is the same as being last. -/
theorem tail_eq_some_iff {h : Heap} {ll : LinkedList} {X Y : List Nat} {n : Nat}
    (hr : Represents h ll (X ++ n :: Y)) : ll.tail = some n ↔ Y = [] := by
  rw [hr.tail_eq]
  cases Y with
  | nil => simp [getLast?_concat_nat]
  | cons y Y' =>
    have hnY : n ∉ y :: Y' := (nodup_mid hr.nodup).2.1
    have hne : y :: Y' ≠ ([] : List Nat) := by simp
    rw [getLast?_append_right X _ (by simp), List.getLast?_cons_cons,
      List.getLast?_eq_getLast_of_ne_nil hne]
    constructor
    · intro hx
      rw [Option.some_inj] at hx
      exact absurd (hx ▸ List.getLast_mem hne) hnY
    · intro hx; exact absurd hx (by simp)

theorem ne_of_memnot {a n : Nat} {l : List Nat} (ha : a ∈ l) (hn : n ∉ l) : a ≠ n :=
  fun he => hn (he ▸ ha)

/-- append on a represented list appends the fresh node at the end. -/
theorem append_rep {h : Heap} {ll : LinkedList} {l : List Nat} {n : Nat}
    (hr : Represents h ll l) (hn : n ∉ l)
    (hprev : (h n).prev = none) (hnext : (h n).next = none) :
    Represents (LinkedList.append h ll n).1 (LinkedList.append h ll n).2 (l ++ [n]) := by
  rcases List.eq_nil_or_concat l with hl | ⟨l', t, hl⟩
  · subst hl
    have ht : ll.tail = none := hr.tail_eq
    simp only [LinkedList.append, ht, List.nil_append]
    refine ⟨rfl, rfl, List.nodup_singleton n, ?_, ?_, List.chain'_singleton n⟩
    · intro a ha; simp only [List.head?_cons, Option.some_inj] at ha; subst ha; exact hprev
    · intro a ha; simp at ha; subst ha; exact hnext
  · rw [List.concat_eq_append] at hl
    subst hl
    have ht : ll.tail = some t := by rw [hr.tail_eq, getLast?_concat_nat]
    simp only [LinkedList.append, ht]
    have htn : t ≠ n := ne_of_memnot (List.mem_append_right l' (List.mem_cons_self t [])) hn
    have hnt : n ≠ t := htn.symm
    have htl' : t ∉ l' := by
      have := hr.nodup
      rw [List.nodup_append] at this
      exact fun hm => this.2.2 hm (List.mem_cons_self t [])
    set h2 := LinkedList.setNext (LinkedList.setPrev h n (some t)) t (some n) with hh2
    have hsp_t : LinkedList.setPrev h n (some t) t = h t := sp_ne _ _ _ _ htn
    have h2n : h2 n = ⟨some t, none⟩ := by
      rw [hh2, sn_ne _ _ _ _ hnt, sp_eq, hnext]
    have h2t : h2 t = ⟨(h t).prev, some n⟩ := by
      rw [hh2, sn_eq, hsp_t]
    have h2other : ∀ m, m ≠ n → m ≠ t → h2 m = h m := by
      intro m hm hmt
      rw [hh2, sn_ne _ _ _ _ hmt, sp_ne _ _ _ _ hm]
    have h2prev : ∀ m, m ≠ n → (h2 m).prev = (h m).prev := by
      intro m hm
      by_cases hmt : m = t
      · subst hmt; rw [h2t]
      · rw [h2other m hm hmt]
    refine ⟨?_, ?_, ?_, ?_, ?_, ?_⟩
    · rw [hr.head_eq, head?_append_left [n] (by simp)]
    · rw [getLast?_concat_nat]
    · rw [List.nodup_append]
      exact ⟨hr.nodup, List.nodup_singleton n,
        fun a ha ha' => (ne_of_memnot ha hn) (List.mem_singleton.1 ha')⟩
    · intro a ha
      rw [head?_append_left [n] (by simp)] at ha
      have hane : a ≠ n := ne_of_memnot (mem_of_head? ha) hn
      rw [h2prev a hane]
      exact hr.prev_head a ha
    · intro a ha
      rw [getLast?_concat_nat] at ha
      rw [Option.some_inj] at ha; subst ha
      rw [h2n]
    · rw [List.chain'_append]
      refine ⟨?_, List.chain'_singleton n, ?_⟩
      · refine chain'_heap_congr _ ?_ ?_ hr.chain
        · intro a ha
          rw [List.dropLast_concat] at ha
          have han : a ≠ n := ne_of_memnot (List.mem_append_left [t] ha) hn
          have hat : a ≠ t := ne_of_memnot ha htl'
          rw [h2other a han hat]
        · intro a ha
          have ham : a ∈ l' ++ [t] := List.mem_of_mem_tail ha
          rw [h2prev a (ne_of_memnot ham hn)]
      · intro x hx y hy
        rw [Option.mem_def, getLast?_concat_nat, Option.some_inj] at hx
        rw [Option.mem_def, List.head?_cons, Option.some_inj] at hy
        subst hx; subst hy
        constructor
        · rw [h2t]
        · rw [h2n]

theorem nodup_insert_mid {X Y : List Nat} {n : Nat} (hnd : (X ++ Y).Nodup)
    (hn : n ∉ X ++ Y) : (X ++ n :: Y).Nodup := by
  rw [List.nodup_append] at hnd
  rw [List.mem_append] at hn
  rw [List.nodup_append, List.nodup_cons]
  refine ⟨hnd.1, ⟨fun hm => hn (Or.inr hm), hnd.2.1⟩, ?_⟩
  intro a ha ha'
  rcases List.mem_cons.1 ha' with he | hm
  · exact hn (Or.inl (he ▸ ha))
  · exact hnd.2.2 ha hm

/-- insertBefore on a represented list inserts the fresh node right before the
reference node. -/
theorem insertBefore_rep {h : Heap} {ll : LinkedList} {X Y : List Nat} {b n : Nat}
    (hr : Represents h ll (X ++ b :: Y)) (hn : n ∉ X ++ b :: Y) :
    Represents (LinkedList.insertBefore h ll b n).1 (LinkedList.insertBefore h ll b n).2
      (X ++ n :: b :: Y) := by
  have hnd := hr.nodup
  obtain ⟨hbX, hbY, _⟩ := nodup_mid hnd
  have hbn : b ≠ n := ne_of_memnot (List.mem_append_right X (List.mem_cons_self b Y)) hn
  have hnb : n ≠ b := hbn.symm
  have hnX : n ∉ X := fun hm => hn (List.mem_append_left _ hm)
  have hnY : n ∉ Y := fun hm => hn (List.mem_append_right X (List.mem_cons_of_mem b hm))
  have hprevb : (h b).prev = X.getLast? := rep_prev hr
  have hchain := hr.chain
  rw [List.chain'_append] at hchain
  obtain ⟨hchX, hchBY, hbdry⟩ := hchain
  have hscrut : ((LinkedList.setNext (LinkedList.setPrev h n ((h b).prev)) n (some b)) b).prev
      = X.getLast? := by
    rw [sn_ne _ _ _ _ hbn, sp_ne _ _ _ _ hbn, hprevb]
  rcases List.eq_nil_or_concat X with hX | ⟨X'', p, hX⟩
  · subst hX
    have hcond : ll.head = some b := (head_eq_some_iff hr).2 rfl
    have hlast : (([] : List Nat)).getLast? = none := rfl
    simp only [LinkedList.insertBefore, hcond, if_pos]
    rw [hscrut, hlast]
    set h4 := LinkedList.setPrev
      (LinkedList.setNext (LinkedList.setPrev h n ((h b).prev)) n (some b)) b (some n)
      with hh4
    have h4n : h4 n = ⟨(h b).prev, some b⟩ := by
      rw [hh4, sp_ne _ _ _ _ hnb, sn_eq, sp_eq]
    have h4b : h4 b = ⟨some n, (h b).next⟩ := by
      rw [hh4, sp_eq, sn_ne _ _ _ _ hbn, sp_ne _ _ _ _ hbn]
    have h4other : ∀ m, m ≠ n → m ≠ b → h4 m = h m := by
      intro m hm hmb
      rw [hh4, sp_ne _ _ _ _ hmb, sn_ne _ _ _ _ hm, sp_ne _ _ _ _ hm]
    refine ⟨rfl, ?_, ?_, ?_, ?_, ?_⟩
    · rw [hr.tail_eq]
      simp only [List.nil_append]
      rw [List.getLast?_cons_cons]
    · exact nodup_insert_mid hnd hn
    · intro a ha
      simp only [List.nil_append, List.head?_cons, Option.some_inj] at ha
      subst ha
      rw [h4n, hprevb]
      rfl
    · intro a ha
      simp only [List.nil_append, List.getLast?_cons_cons] at ha
      have haBY : a ∈ b :: Y := mem_of_getLast? ha
      have han : a ≠ n := ne_of_memnot (List.mem_append_right [] haBY) hn
      have hanext : (h4 a).next = (h a).next := by
        rcases List.mem_cons.1 haBY with he | hm
        · subst he; rw [h4b]
        · rw [h4other a han (ne_of_memnot hm hbY)]
      rw [hanext]
      exact hr.next_last a (by simpa using ha)
    · simp only [List.nil_append]
      rw [List.chain'_cons]
      constructor
      · constructor
        · rw [h4n]
        · rw [h4b]
      · refine chain'_heap_congr _ ?_ ?_ hchBY
        · intro a ha
          have ham : a ∈ b :: Y := List.dropLast_subset _ ha
          have han : a ≠ n := ne_of_memnot (List.mem_append_right [] ham) hn
          rcases List.mem_cons.1 ham with he | hm
          · subst he; rw [h4b]
          · rw [h4other a han (ne_of_memnot hm hbY)]
        · intro a ha
          have hm : a ∈ Y := ha
          rw [h4other a (ne_of_memnot hm hnY) (ne_of_memnot hm hbY)]
  · rw [List.concat_eq_append] at hX
    subst hX
    have hXne : X'' ++ [p] ≠ ([] : List Nat) := by simp
    have hcond : ll.head ≠ some b := by
      rw [Ne, head_eq_some_iff hr]
      exact hXne
    have hpX : p ∈ X'' ++ [p] := List.mem_append_right X'' (List.mem_cons_self p [])
    have hpn : p ≠ n := ne_of_memnot hpX hnX
    have hpb : p ≠ b := ne_of_memnot hpX hbX
    have hlastX : (X'' ++ [p]).getLast? = some p := getLast?_concat_nat X'' p
    simp only [LinkedList.insertBefore, if_neg hcond]
    rw [hscrut, hlastX]
    set h4 := LinkedList.setPrev
      (LinkedList.setNext
        (LinkedList.setNext (LinkedList.setPrev h n ((h b).prev)) n (some b)) p (some n))
      b (some n) with hh4
    have h4n : h4 n = ⟨(h b).prev, some b⟩ := by
      rw [hh4, sp_ne _ _ _ _ hnb, sn_ne _ _ _ _ hpn.symm, sn_eq, sp_eq]
    have h4b : h4 b = ⟨some n, (h b).next⟩ := by
      rw [hh4, sp_eq, sn_ne _ _ _ _ hpb.symm, sn_ne _ _ _ _ hbn, sp_ne _ _ _ _ hbn]
    have h4p : h4 p = ⟨(h p).prev, some n⟩ := by
      rw [hh4, sp_ne _ _ _ _ hpb, sn_eq, sn_ne _ _ _ _ hpn, sp_ne _ _ _ _ hpn]
    have h4other : ∀ m, m ≠ n → m ≠ b → m ≠ p → h4 m = h m := by
      intro m hm hmb hmp
      rw [hh4, sp_ne _ _ _ _ hmb, sn_ne _ _ _ _ hmp, sn_ne _ _ _ _ hm, sp_ne _ _ _ _ hm]
    have h4prev : ∀ m, m ≠ n → m ≠ b → (h4 m).prev = (h m).prev := by
      intro m hm hmb
      by_cases hmp : m = p
      · subst hmp; rw [h4p]
      · rw [h4other m hm hmb hmp]
    have h4next : ∀ m, m ≠ n → m ≠ p → (h4 m).next = (h m).next := by
      intro m hm hmp
      by_cases hmb : m = b
      · subst hmb; rw [h4b]
      · rw [h4other m hm hmb hmp]
    refine ⟨?_, ?_, ?_, ?_, ?_, ?_⟩
    · rw [hr.head_eq, head?_append_left _ hXne, head?_append_left _ hXne]
    · rw [hr.tail_eq, getLast?_append_right _ (b :: Y) (by simp),
        getLast?_append_right _ (n :: b :: Y) (by simp), List.getLast?_cons_cons]
    · exact nodup_insert_mid hnd hn
    · intro a ha
      rw [head?_append_left _ hXne] at ha
      have haX : a ∈ X'' ++ [p] := mem_of_head? ha
      rw [h4prev a (ne_of_memnot haX hnX) (fun he => hbX (he ▸ haX))]
      exact hr.prev_head a (by rw [head?_append_left _ hXne]; exact ha)
    · intro a ha
      rw [getLast?_append_right _ (n :: b :: Y) (by simp), List.getLast?_cons_cons] at ha
      have haBY : a ∈ b :: Y := mem_of_getLast? ha
      have han : a ≠ n := ne_of_memnot (List.mem_append_right _ haBY) hn
      have hap : a ≠ p := by
        intro he
        subst he
        have hdis := hnd
        rw [List.nodup_append] at hdis
        rcases List.mem_cons.1 haBY with he' | hm
        · exact hpb he'
        · exact hdis.2.2 hpX (List.mem_cons_of_mem b hm)
      rw [h4next a han hap]
      refine hr.next_last a ?_
      rw [getLast?_append_right _ (b :: Y) (by simp)]
      exact ha
    · rw [List.chain'_append]
      refine ⟨?_, ?_, ?_⟩
      · refine chain'_heap_congr _ ?_ ?_ hchX
        · intro a ha
          rw [List.dropLast_concat] at ha
          have hpX'' : p ∉ X'' := by
            have := hnd
            rw [List.nodup_append] at this
            have hx := this.1
            rw [List.nodup_append] at hx
            exact fun hm => hx.2.2 hm (List.mem_cons_self p [])
          have haX : a ∈ X'' ++ [p] := List.mem_append_left _ ha
          rw [h4next a (ne_of_memnot haX hnX) (ne_of_memnot ha hpX'')]
        · intro a ha
          have haX : a ∈ X'' ++ [p] := List.mem_of_mem_tail ha
          rw [h4prev a (ne_of_memnot haX hnX) (fun he => hbX (he ▸ haX))]
      · rw [List.chain'_cons]
        refine ⟨⟨?_, ?_⟩, ?_⟩
        · rw [h4n]
        · rw [h4b]
        · refine chain'_heap_congr _ ?_ ?_ hchBY
          · intro a ha
            have ham : a ∈ b :: Y := List.dropLast_subset _ ha
            have han : a ≠ n := ne_of_memnot (List.mem_append_right _ ham) hn
            have hap : a ≠ p := by
              intro he
              subst he
              have hdis := hnd
              rw [List.nodup_append] at hdis
              rcases List.mem_cons.1 ham with he' | hm
              · exact hpb he'
              · exact hdis.2.2 hpX (List.mem_cons_of_mem b hm)
            rw [h4next a han hap]
          · intro a ha
            have hm : a ∈ Y := ha
            rw [h4prev a (ne_of_memnot hm hnY) (ne_of_memnot hm hbY)]
      · intro x hx y hy
        rw [Option.mem_def, hlastX, Option.some_inj] at hx
        rw [Option.mem_def, List.head?_cons, Option.some_inj] at hy
        subst hx; subst hy
        constructor
        · rw [h4p]
        · rw [h4n, hprevb, hlastX]

/-- Full characterisation of remove on a represented list: the returned resume
node, the re-derived head/tail, the cleared links — and, when the removed node
is not the head, the resulting list is still well formed.  (When the removed
node is the head of a longer list, the source never repairs the new head's
prev pointer, so no Represents conclusion is available in that case.) -/
theorem remove_spec {h : Heap} {ll : LinkedList} {X Y : List Nat} {n : Nat}
    (hr : Represents h ll (X ++ n :: Y)) :
    ∃ h' ll', LinkedList.remove h ll n = some (h', ll', Y.head?) ∧
      ll'.head = (X ++ Y).head? ∧ ll'.tail = (X ++ Y).getLast? ∧
      h' n = ⟨none, none⟩ ∧
      (X ≠ [] → Represents h' ll' (X ++ Y)) := by
  have hnd := hr.nodup
  obtain ⟨hnX, hnY, hndXY⟩ := nodup_mid hnd
  have hnextn : (h n).next = Y.head? := rep_next hr
  have hprevn : (h n).prev = X.getLast? := rep_prev hr
  rcases List.eq_nil_or_concat X with hX | ⟨X'', p, hX⟩
  · subst hX
    have hcond : ll.head = some n := (head_eq_some_iff hr).2 rfl
    simp only [LinkedList.remove, if_pos hcond]
    refine ⟨LinkedList.setNext (LinkedList.setPrev h n none) n none,
      (if ll.tail = some n then { head := (h n).next, tail := (h n).next }
        else { head := (h n).next, tail := ll.tail } : LinkedList),
      ?_, ?_, ?_, ?_, fun hf => absurd rfl hf⟩
    · rw [hnextn]
    · split <;> simp [hnextn]
    · cases Y with
      | nil =>
        have htl : ll.tail = some n := (tail_eq_some_iff hr).2 rfl
        simp [htl, hnextn]
      | cons y Y' =>
        have htl : ll.tail ≠ some n := by rw [Ne, tail_eq_some_iff hr]; simp
        simp only [if_neg htl]
        rw [hr.tail_eq]
        simp
    · rw [sn_eq, sp_eq]
  · rw [List.concat_eq_append] at hX
    subst hX
    have hXne : X'' ++ [p] ≠ ([] : List Nat) := by simp
    have hcond : ll.head ≠ some n := by rw [Ne, head_eq_some_iff hr]; exact hXne
    have hlastX : (X'' ++ [p]).getLast? = some p := getLast?_concat_nat X'' p
    have hpX : p ∈ X'' ++ [p] := List.mem_append_right X'' (List.mem_cons_self p [])
    have hpn : p ≠ n := ne_of_memnot hpX hnX
    have hnp : n ≠ p := hpn.symm
    have hpX'' : p ∉ X'' := by
      have hx := hnd
      rw [List.nodup_append] at hx
      have hx1 := hx.1
      rw [List.nodup_append] at hx1
      exact fun hm => hx1.2.2 hm (List.mem_cons_self p [])
    have hdisj : ∀ a ∈ X'' ++ [p], a ∉ n :: Y := by
      have hx := hnd
      rw [List.nodup_append] at hx
      exact fun a ha ha' => hx.2.2 ha ha'
    have hchain := hr.chain
    rw [List.chain'_append] at hchain
    obtain ⟨hchX, hchNY, hbdry⟩ := hchain
    simp only [LinkedList.remove, if_neg hcond, hprevn, hlastX]
    cases Y with
    | nil =>
      have htl : ll.tail = some n := (tail_eq_some_iff hr).2 rfl
      simp only [if_pos htl]
      refine ⟨LinkedList.setNext
          (LinkedList.setPrev (LinkedList.setNext h p ((h n).next)) n none) n none,
        { head := ll.head, tail := (LinkedList.setNext h p ((h n).next) n).prev },
        ?_, ?_, ?_, ?_, fun _ => ?_⟩
      · rw [hnextn]
      · rw [hr.head_eq, head?_append_left _ hXne, head?_append_left _ hXne]
      · rw [sn_ne _ _ _ _ hnp, hprevn, hlastX, List.append_nil, hlastX]
      · rw [sn_eq, sp_eq]
      · rw [List.append_nil]
        set h1 := LinkedList.setNext h p ([].head?) with hh1
        set h2 := LinkedList.setNext
          (LinkedList.setPrev (LinkedList.setNext h p ((h n).next)) n none) n none with hh2
        have h2p : h2 p = ⟨(h p).prev, none⟩ := by
          rw [hh2, sn_ne _ _ _ _ hpn, sp_ne _ _ _ _ hpn, sn_eq, hnextn]
          rfl
        have h2other : ∀ m, m ≠ n → m ≠ p → h2 m = h m := by
          intro m hm hmp
          rw [hh2, sn_ne _ _ _ _ hm, sp_ne _ _ _ _ hm, sn_ne _ _ _ _ hmp]
        have h2prev : ∀ m, m ≠ n → (h2 m).prev = (h m).prev := by
          intro m hm
          by_cases hmp : m = p
          · subst hmp; rw [h2p]
          · rw [h2other m hm hmp]
        refine ⟨?_, ?_, ?_, ?_, ?_, ?_⟩
        · rw [hr.head_eq, head?_append_left _ hXne]
        · simp only [LinkedList.tail]
          rw [sn_ne _ _ _ _ hnp, hprevn, hlastX]
        · exact (List.nodup_append.1 hnd).1
        · intro a ha
          have haX : a ∈ X'' ++ [p] := mem_of_head? ha
          rw [h2prev a (ne_of_memnot haX hnX)]
          exact hr.prev_head a (by rw [head?_append_left _ hXne]; exact ha)
        · intro a ha
          rw [hlastX, Option.some_inj] at ha
          subst ha
          rw [h2p]
        · refine chain'_heap_congr _ ?_ ?_ hchX
          · intro a ha
            rw [List.dropLast_concat] at ha
            have haX : a ∈ X'' ++ [p] := List.mem_append_left _ ha
            rw [h2other a (ne_of_memnot haX hnX) (ne_of_memnot ha hpX'')]
          · intro a ha
            have haX : a ∈ X'' ++ [p] := List.mem_of_mem_tail ha
            rw [h2prev a (ne_of_memnot haX hnX)]
    | cons y Y' =>
      have htl : ll.tail ≠ some n := by rw [Ne, tail_eq_some_iff hr]; simp
      simp only [if_neg htl]
      have hread : (LinkedList.setNext h p ((h n).next) n).next = some y := by
        rw [sn_ne _ _ _ _ hnp, hnextn]
        rfl
      rw [hread]
      have hyY : y ∈ y :: Y' := List.mem_cons_self y Y'
      have hyn : y ≠ n := ne_of_memnot hyY hnY
      have hyp : y ≠ p := by
        intro he
        exact hdisj p hpX (he ▸ List.mem_cons_of_mem n hyY)
      have hyX'' : y ∉ X'' ++ [p] := fun hm => hdisj y hm (List.mem_cons_of_mem n hyY)
      refine ⟨LinkedList.setNext
          (LinkedList.setPrev
            (LinkedList.setPrev (LinkedList.setNext h p ((h n).next)) y
              ((LinkedList.setNext h p ((h n).next) n).prev))
            n none) n none,
        ll, ?_, ?_, ?_, ?_, fun _ => ?_⟩
      · rw [hnextn]
      · rw [hr.head_eq, head?_append_left _ hXne, head?_append_left _ hXne]
      · rw [hr.tail_eq, getLast?_append_right _ (n :: y :: Y') (by simp),
          getLast?_append_right _ (y :: Y') (by simp), List.getLast?_cons_cons]
      · rw [sn_eq, sp_eq]
      · set h3 := LinkedList.setNext
          (LinkedList.setPrev
            (LinkedList.setPrev (LinkedList.setNext h p ((h n).next)) y
              ((LinkedList.setNext h p ((h n).next) n).prev))
            n none) n none with hh3
        have hreadp : (LinkedList.setNext h p ((h n).next) n).prev = some p := by
          rw [sn_ne _ _ _ _ hnp, hprevn, hlastX]
        rw [hreadp] at hh3
        have h3p : h3 p = ⟨(h p).prev, some y⟩ := by
          rw [hh3, sn_ne _ _ _ _ hpn, sp_ne _ _ _ _ hpn, sp_ne _ _ _ _ hyp.symm, sn_eq, hnextn]
          rfl
        have h3y : h3 y = ⟨some p, (h y).next⟩ := by
          rw [hh3, sn_ne _ _ _ _ hyn, sp_ne _ _ _ _ hyn, sp_eq, sn_ne _ _ _ _ hyp]
        have h3other : ∀ m, m ≠ n → m ≠ p → m ≠ y → h3 m = h m := by
          intro m hm hmp hmy
          rw [hh3, sn_ne _ _ _ _ hm, sp_ne _ _ _ _ hm, sp_ne _ _ _ _ hmy, sn_ne _ _ _ _ hmp]
        have h3prev : ∀ m, m ≠ n → m ≠ y → (h3 m).prev = (h m).prev := by
          intro m hm hmy
          by_cases hmp : m = p
          · subst hmp; rw [h3p]
          · rw [h3other m hm hmp hmy]
        have h3next : ∀ m, m ≠ n → m ≠ p → (h3 m).next = (h m).next := by
          intro m hm hmp
          by_cases hmy : m = y
          · subst hmy; rw [h3y]
          · rw [h3other m hm hmp hmy]
        have hchY : List.Chain' (chainRel h) (y :: Y') := by
          rw [List.chain'_cons] at hchNY
          exact hchNY.2
        refine ⟨?_, ?_, ?_, ?_, ?_, ?_⟩
        · rw [hr.head_eq, head?_append_left _ hXne, head?_append_left _ hXne]
        · rw [hr.tail_eq, getLast?_append_right _ (n :: y :: Y') (by simp),
            getLast?_append_right _ (y :: Y') (by simp), List.getLast?_cons_cons]
        · exact hndXY
        · intro a ha
          rw [head?_append_left _ hXne] at ha
          have haX : a ∈ X'' ++ [p] := mem_of_head? ha
          rw [h3prev a (ne_of_memnot haX hnX) (fun he => hyX'' (he ▸ haX))]
          exact hr.prev_head a (by rw [head?_append_left _ hXne]; exact ha)
        · intro a ha
          rw [getLast?_append_right _ (y :: Y') (by simp)] at ha
          have haY : a ∈ y :: Y' := mem_of_getLast? ha
          have han : a ≠ n := fun he => hnY (he ▸ haY)
          have hap : a ≠ p := fun he => hdisj p hpX (he ▸ List.mem_cons_of_mem n haY)
          rw [h3next a han hap]
          refine hr.next_last a ?_
          rw [getLast?_append_right _ (n :: y :: Y') (by simp), List.getLast?_cons_cons]
          exact ha
        · rw [List.chain'_append]
          refine ⟨?_, ?_, ?_⟩
          · refine chain'_heap_congr _ ?_ ?_ hchX
            · intro a ha
              rw [List.dropLast_concat] at ha
              have haX : a ∈ X'' ++ [p] := List.mem_append_left _ ha
              rw [h3next a (ne_of_memnot haX hnX) (ne_of_memnot ha hpX'')]
            · intro a ha
              have haX : a ∈ X'' ++ [p] := List.mem_of_mem_tail ha
              rw [h3prev a (ne_of_memnot haX hnX) (fun he => hyX'' (he ▸ haX))]
          · refine chain'_heap_congr _ ?_ ?_ hchY
            · intro a ha
              have haY : a ∈ y :: Y' := List.dropLast_subset _ ha
              have han : a ≠ n := fun he => hnY (he ▸ haY)
              have hap : a ≠ p := fun he => hdisj p hpX (he ▸ List.mem_cons_of_mem n haY)
              rw [h3next a han hap]
            · intro a ha
              have haY' : a ∈ Y' := ha
              have hYnd : (y :: Y').Nodup := by
                have := hndXY
                rw [List.nodup_append] at this
                exact this.2.1
              have hay : a ≠ y := by
                rw [List.nodup_cons] at hYnd
                exact ne_of_memnot haY' hYnd.1
              have han : a ≠ n := fun he => hnY (he ▸ List.mem_cons_of_mem y haY')
              rw [h3prev a han hay]
          · intro x hx yy hy
            rw [Option.mem_def, hlastX, Option.some_inj] at hx
            rw [Option.mem_def, List.head?_cons, Option.some_inj] at hy
            subst hx; subst hy
            constructor
            · rw [h3p]
            · rw [h3y]

/-- Walking next-links from the head of a represented contiguous segment to
its last node yields exactly the segment. -/
theorem walkTo_spec {h : Heap} {ll : LinkedList} :
    ∀ (S A B : List Nat) (s e : Nat) (wfuel : Nat),
      Represents h ll (A ++ S ++ B) → S.head? = some s → S.getLast? = some e →
      S.length ≤ wfuel →
      LinkedList.walkTo h e wfuel s = some S := by
  intro S
  induction S with
  | nil => intro A B s e wfuel _ hhead _ _; simp at hhead
  | cons x S' ih =>
    intro A B s e wfuel hr hhead hlast hfuel
    rw [List.head?_cons, Option.some_inj] at hhead
    subst hhead
    obtain ⟨wfuel, rfl⟩ : ∃ w, wfuel = w + 1 := by
      cases wfuel with
      | zero => simp at hfuel
      | succ w => exact ⟨w, rfl⟩
    have hSnd : (x :: S').Nodup := by
      have := hr.nodup
      rw [List.nodup_append] at this
      have h1 := this.1
      rw [List.nodup_append] at h1
      exact h1.2.1
    cases S' with
    | nil =>
      simp only [List.getLast?_singleton, Option.some_inj] at hlast
      subst hlast
      simp [LinkedList.walkTo]
    | cons y S'' =>
      rw [List.getLast?_cons_cons] at hlast
      have heS : e ∈ y :: S'' := mem_of_getLast? hlast
      have hsne : x ≠ e := by
        rw [List.nodup_cons] at hSnd
        exact (ne_of_memnot heS hSnd.1).symm
      have hnext : (h x).next = some y := by
        have hre : A ++ (x :: y :: S'') ++ B = A ++ x :: ((y :: S'') ++ B) := by simp
        have := rep_next (X := A) (Y := (y :: S'') ++ B) (by rw [← hre]; exact hr)
        rw [this]
        rfl
      simp only [LinkedList.walkTo, if_neg hsne, hnext]
      have hre2 : A ++ (x :: y :: S'') ++ B = (A ++ [x]) ++ (y :: S'') ++ B := by simp
      rw [ih (A ++ [x]) B y e wfuel (by rw [← hre2]; exact hr) rfl hlast
        (by simpa using Nat.succ_le_succ_iff.1 hfuel)]
      rfl

/-- prependList splices the other list's chain before this list's chain. -/
theorem prependList_rep {h : Heap} {lA lB : List Nat} {llA llB : LinkedList}
    (hrA : Represents h llA lA) (hrB : Represents h llB lB)
    (hnd : (lB ++ lA).Nodup) :
    Represents (LinkedList.prependList h llA llB).1 (LinkedList.prependList h llA llB).2
      (lB ++ lA) := by
  rcases List.eq_nil_or_concat lB with hB | ⟨lB', ot, hB⟩
  · subst hB
    have ht : llB.tail = none := hrB.tail_eq
    simp only [LinkedList.prependList, ht, List.nil_append]
    exact hrA
  · rw [List.concat_eq_append] at hB
    subst hB
    have hBne : lB' ++ [ot] ≠ ([] : List Nat) := by simp
    have ht : llB.tail = some ot := by rw [hrB.tail_eq, getLast?_concat_nat]
    obtain ⟨oh, hoh⟩ : ∃ oh, llB.head = some oh := by
      rw [hrB.head_eq]
      cases hB' : lB' ++ [ot] with
      | nil => exact absurd hB' hBne
      | cons z zs => exact ⟨z, rfl⟩
    have hotB : ot ∈ lB' ++ [ot] := List.mem_append_right lB' (List.mem_cons_self ot [])
    have hdisj : ∀ a ∈ lB' ++ [ot], a ∉ lA := by
      have := hnd
      rw [List.nodup_append] at this
      exact fun a ha ha' => this.2.2 ha ha'
    cases hlA : lA with
    | nil =>
      subst hlA
      have hh : llA.head = none := hrA.head_eq
      simp only [LinkedList.prependList, ht, hoh, hh, List.append_nil]
      refine ⟨?_, ?_, ?_, ?_, ?_, ?_⟩
      · show some oh = _
        rw [← hoh, hrB.head_eq]
      · show some ot = _
        rw [← ht, hrB.tail_eq]
      · exact hrB.nodup
      · exact hrB.prev_head
      · exact hrB.next_last
      · exact hrB.chain
    | cons th1 lA' =>
      have hh : llA.head = some th1 := by rw [hrA.head_eq, hlA]; rfl
      rw [← hlA]
      subst hlA
      simp only [LinkedList.prependList, ht, hoh, hh]
      have hthA : th1 ∈ th1 :: lA' := List.mem_cons_self th1 lA'
      have hotth : ot ≠ th1 := fun he => hdisj ot hotB (he ▸ hthA)
      have hthot : th1 ≠ ot := hotth.symm
      set h2 := LinkedList.setNext (LinkedList.setPrev h th1 (some ot)) ot (some th1) with hh2
      have h2th : h2 th1 = ⟨some ot, (h th1).next⟩ := by
        rw [hh2, sn_ne _ _ _ _ hthot, sp_eq]
      have h2ot : h2 ot = ⟨(h ot).prev, some th1⟩ := by
        rw [hh2, sn_eq, sp_ne _ _ _ _ hotth]
      have h2other : ∀ m, m ≠ th1 → m ≠ ot → h2 m = h m := by
        intro m hm hmo
        rw [hh2, sn_ne _ _ _ _ hmo, sp_ne _ _ _ _ hm]
      have h2prev : ∀ m, m ≠ th1 → (h2 m).prev = (h m).prev := by
        intro m hm
        by_cases hmo : m = ot
        · subst hmo; rw [h2ot]
        · rw [h2other m hm hmo]
      have h2next : ∀ m, m ≠ ot → (h2 m).next = (h m).next := by
        intro m hmo
        by_cases hm : m = th1
        · subst hm; rw [h2th]
        · rw [h2other m hm hmo]
      have hotB' : ot ∉ lB' := by
        have := hrB.nodup
        rw [List.nodup_append] at this
        exact fun hm => this.2.2 hm (List.mem_cons_self ot [])
      have hthlA' : th1 ∉ lA' := by
        have := hrA.nodup
        rw [List.nodup_cons] at this
        exact this.1
      refine ⟨?_, ?_, ?_, ?_, ?_, ?_⟩
      · show some oh = _
        rw [← hoh, hrB.head_eq, head?_append_left _ hBne]
      · show llA.tail = _
        rw [hrA.tail_eq, getLast?_append_right _ (th1 :: lA') (by simp)]
      · exact hnd
      · intro a ha
        rw [head?_append_left _ hBne] at ha
        have haB : a ∈ lB' ++ [ot] := mem_of_head? ha
        rw [h2prev a (fun he => hdisj a haB (he ▸ hthA))]
        exact hrB.prev_head a ha
      · intro a ha
        rw [getLast?_append_right _ (th1 :: lA') (by simp)] at ha
        have haA : a ∈ th1 :: lA' := mem_of_getLast? ha
        rw [h2next a (fun he => hdisj ot hotB (he ▸ haA))]
        exact hrA.next_last a ha
      · rw [List.chain'_append]
        refine ⟨?_, ?_, ?_⟩
        · refine chain'_heap_congr _ ?_ ?_ hrB.chain
          · intro a ha
            rw [List.dropLast_concat] at ha
            have haB : a ∈ lB' ++ [ot] := List.mem_append_left _ ha
            rw [h2next a (ne_of_memnot ha hotB')]
          · intro a ha
            have haB : a ∈ lB' ++ [ot] := List.mem_of_mem_tail ha
            rw [h2prev a (fun he => hdisj a haB (he ▸ hthA))]
        · refine chain'_heap_congr _ ?_ ?_ hrA.chain
          · intro a ha
            have haA : a ∈ th1 :: lA' := List.dropLast_subset _ ha
            rw [h2next a (fun he => hdisj ot hotB (he ▸ haA))]
          · intro a ha
            have haA' : a ∈ lA' := ha
            rw [h2prev a (ne_of_memnot haA' hthlA')]
        · intro x hx y hy
          rw [Option.mem_def, getLast?_concat_nat, Option.some_inj] at hx
          rw [Option.mem_def, List.head?_cons, Option.some_inj] at hy
          subst hx; subst hy
          constructor
          · rw [h2ot]
          · rw [h2th]

theorem ins_perm (cmp : Nat → Nat → Int) (u : Nat) :
    ∀ S : List Nat, (ins cmp u S).Perm (u :: S) := by
  intro S
  induction S with
  | nil => exact List.Perm.refl _
  | cons x xs ih =>
    rw [ins]
    by_cases hc : cmp u x < 0
    · rw [if_pos hc]
    · rw [if_neg hc]
      exact (List.Perm.cons x ih).trans (List.Perm.swap u x xs)

theorem insFold_perm (cmp : Nat → Nat → Int) :
    ∀ (U S : List Nat), (insFold cmp S U).Perm (S ++ U) := by
  intro U
  induction U with
  | nil => intro S; simp [insFold]
  | cons u U' ih =>
    intro S
    have h1 : insFold cmp S (u :: U') = insFold cmp (ins cmp u S) U' := rfl
    rw [h1]
    refine (ih (ins cmp u S)).trans ?_
    refine (List.Perm.append_right U' (ins_perm cmp u S)).trans ?_
    exact List.perm_middle.symm

theorem ins_eq_insert (cmp : Nat → Nat → Int) (u x : Nat) :
    ∀ (A B : List Nat), (∀ a ∈ A, ¬ cmp u a < 0) → cmp u x < 0 →
      ins cmp u (A ++ x :: B) = A ++ u :: x :: B := by
  intro A
  induction A with
  | nil => intro B _ hx; simp [ins, if_pos hx]
  | cons a A' ih =>
    intro B hA hx
    have ha : ¬ cmp u a < 0 := hA a (List.mem_cons_self a A')
    simp only [List.cons_append, ins, if_neg ha, List.append_eq]
    rw [ih B (fun b hb => hA b (List.mem_cons_of_mem a hb)) hx]

theorem ins_eq_append (cmp : Nat → Nat → Int) (u : Nat) :
    ∀ S : List Nat, (∀ a ∈ S, ¬ cmp u a < 0) → ins cmp u S = S ++ [u] := by
  intro S
  induction S with
  | nil => intro _; rfl
  | cons x xs ih =>
    intro hS
    have hx : ¬ cmp u x < 0 := hS x (List.mem_cons_self x xs)
    simp only [ins, if_neg hx, List.cons_append]
    rw [ih fun b hb => hS b (List.mem_cons_of_mem x hb)]

theorem ins_ne_nil (cmp : Nat → Nat → Int) (u : Nat) (S : List Nat) :
    ins cmp u S ≠ [] := by
  cases S with
  | nil => simp [ins]
  | cons x xs =>
    rw [ins]
    by_cases hc : cmp u x < 0
    · rw [if_pos hc]; simp
    · rw [if_neg hc]; simp

theorem insFold_ne_nil (cmp : Nat → Nat → Int) :
    ∀ (U S : List Nat), S ≠ [] → insFold cmp S U ≠ [] := by
  intro U
  induction U with
  | nil => intro S hS; exact hS
  | cons u U' ih => intro S _; exact ih (ins cmp u S) (ins_ne_nil cmp u S)

theorem mem_ins (cmp : Nat → Nat → Int) {u a : Nat} {S : List Nat} :
    a ∈ ins cmp u S ↔ a = u ∨ a ∈ S := by
  rw [(ins_perm cmp u S).mem_iff, List.mem_cons]

/-- Insertion preserves sortedness (no later element strictly precedes an
earlier one), assuming the strict relation is transitive and irreflexive. -/
theorem pairwise_ins (cmp : Nat → Nat → Int)
    (htr : ∀ a b c, cmp a b < 0 → cmp b c < 0 → cmp a c < 0)
    (hirr : ∀ a, ¬ cmp a a < 0) (u : Nat) :
    ∀ S : List Nat, S.Pairwise (fun a b => ¬ cmp b a < 0) →
      (ins cmp u S).Pairwise (fun a b => ¬ cmp b a < 0) := by
  intro S
  induction S with
  | nil => intro _; simp [ins]
  | cons x xs ih =>
    intro hS
    rw [List.pairwise_cons] at hS
    obtain ⟨hx, hxs⟩ := hS
    rw [ins]
    by_cases hc : cmp u x < 0
    · rw [if_pos hc]
      rw [List.pairwise_cons]
      constructor
      · intro b hb
        rcases List.mem_cons.1 hb with he | hm
        · subst he
          intro hcon
          exact hirr u (htr u b u hc hcon)
        · intro hcon
          exact hx b hm (htr b u x hcon hc)
      · rw [List.pairwise_cons]
        exact ⟨hx, hxs⟩
    · rw [if_neg hc]
      rw [List.pairwise_cons]
      constructor
      · intro b hb
        rcases (mem_ins cmp).1 hb with he | hm
        · subst he; exact hc
        · exact hx b hm
      · exact ih hxs

theorem pairwise_insFold (cmp : Nat → Nat → Int)
    (htr : ∀ a b c, cmp a b < 0 → cmp b c < 0 → cmp a c < 0)
    (hirr : ∀ a, ¬ cmp a a < 0) :
    ∀ (U S : List Nat), S.Pairwise (fun a b => ¬ cmp b a < 0) →
      (insFold cmp S U).Pairwise (fun a b => ¬ cmp b a < 0) := by
  intro U
  induction U with
  | nil => intro S hS; exact hS
  | cons u U' ih =>
    intro S hS
    exact ih (ins cmp u S) (pairwise_ins cmp htr hirr u S hS)

theorem ins_split (cmp : Nat → Nat → Int) (u : Nat) :
    ∀ S : List Nat, (∀ a ∈ S, ¬ cmp u a < 0) ∨
      ∃ A x B, S = A ++ x :: B ∧ (∀ a ∈ A, ¬ cmp u a < 0) ∧ cmp u x < 0 := by
  intro S
  induction S with
  | nil => left; intro a ha; simp at ha
  | cons x xs ih =>
    by_cases hc : cmp u x < 0
    · right; exact ⟨[], x, xs, rfl, by simp, hc⟩
    · rcases ih with hleft | ⟨A, y, B, hdec, hA, hy⟩
      · left
        intro a ha
        rcases List.mem_cons.1 ha with he | hm
        · subst he; exact hc
        · exact hleft a hm
      · right
        refine ⟨x :: A, y, B, by rw [hdec, List.cons_append], ?_, hy⟩
        intro a ha
        rcases List.mem_cons.1 ha with he | hm
        · subst he; exact hc
        · exact hA a hm

theorem pair_sublist_of_mem {a b : Nat} {L M : List Nat} (ha : a ∈ L) (hb : b ∈ M) :
    [a, b].Sublist (L ++ M) :=
  List.Sublist.append (List.singleton_sublist.2 ha) (List.singleton_sublist.2 hb)

theorem pair_sublist_append {a b : Nat} :
    ∀ {L M : List Nat}, [a, b].Sublist (L ++ M) →
      [a, b].Sublist L ∨ [a, b].Sublist M ∨ (a ∈ L ∧ b ∈ M) := by
  intro L
  induction L with
  | nil => intro M h; right; left; exact h
  | cons x L' ih =>
    intro M h
    rw [List.cons_append] at h
    cases h with
    | cons _ h' =>
      rcases ih h' with h1 | h2 | h3
      · left; exact List.Sublist.cons x h1
      · right; left; exact h2
      · right; right; exact ⟨List.mem_cons_of_mem x h3.1, h3.2⟩
    | cons₂ _ h' =>
      rcases List.mem_append.1 (List.singleton_sublist.1 h') with hbL | hbM
      · left
        exact List.Sublist.cons₂ a (List.singleton_sublist.2 hbL)
      · right; right; exact ⟨List.mem_cons_self a L', hbM⟩

theorem sublist_ins (cmp : Nat → Nat → Int) (u : Nat) :
    ∀ S : List Nat, S.Sublist (ins cmp u S) := by
  intro S
  induction S with
  | nil => simp [ins]
  | cons x xs ih =>
    rw [ins]
    by_cases hc : cmp u x < 0
    · rw [if_pos hc]
      exact List.Sublist.cons u (List.Sublist.refl _)
    · rw [if_neg hc]
      exact List.Sublist.cons₂ x ih

/-- Stability: an equivalent pair in input order stays in that order through
the whole fold, assuming a strict weak order (transitive, irreflexive,
negatively transitive strict relation). -/
theorem stable_insFold (cmp : Nat → Nat → Int)
    (htr : ∀ a b c, cmp a b < 0 → cmp b c < 0 → cmp a c < 0)
    (hirr : ∀ a, ¬ cmp a a < 0)
    (hnt : ∀ a b c, cmp a c < 0 → cmp a b < 0 ∨ cmp b c < 0) :
    ∀ (U S : List Nat), S.Pairwise (fun a b => ¬ cmp b a < 0) →
      ∀ a b, ¬ cmp a b < 0 → ¬ cmp b a < 0 →
        [a, b].Sublist (S ++ U) → [a, b].Sublist (insFold cmp S U) := by
  intro U
  induction U with
  | nil =>
    intro S _ a b _ _ h
    rw [List.append_nil] at h
    exact h
  | cons u U' ih =>
    intro S hS a b hab hba hsub
    show [a, b].Sublist (insFold cmp (ins cmp u S) U')
    refine ih (ins cmp u S) (pairwise_ins cmp htr hirr u S hS) a b hab hba ?_
    rcases pair_sublist_append hsub with h1 | h2 | h3
    · exact (h1.trans (sublist_ins cmp u S)).trans (List.sublist_append_left _ _)
    · cases h2 with
      | cons _ h' => exact h'.trans (List.sublist_append_right _ _)
      | cons₂ _ h' =>
        exact pair_sublist_of_mem ((mem_ins cmp).2 (Or.inl rfl))
          (List.singleton_sublist.1 h')
    · obtain ⟨haS, hbU⟩ := h3
      rcases List.mem_cons.1 hbU with hbu | hbU'
      · subst hbu
        refine List.Sublist.trans ?_ (List.sublist_append_left _ _)
        rcases ins_split cmp b S with hleft | ⟨A, x, B, hSdec, hA, hx⟩
        · rw [ins_eq_append cmp b S hleft]
          exact pair_sublist_of_mem haS (List.mem_cons_self _ _)
        · rw [hSdec, ins_eq_insert cmp b x A B hA hx]
          rw [hSdec] at haS
          rcases List.mem_append.1 haS with haA | haxB
          · exact pair_sublist_of_mem haA (List.mem_cons_self _ _)
          · rcases List.mem_cons.1 haxB with hax | haB
            · subst hax
              exact absurd hx hba
            · have hS' := hS
              rw [hSdec] at hS'
              have hxa : ¬ cmp a x < 0 := by
                rw [List.pairwise_append] at hS'
                have hpx := hS'.2.1
                rw [List.pairwise_cons] at hpx
                exact hpx.1 a haB
              rcases hnt b a x hx with hcon | hcon
              · exact absurd hcon hba
              · exact absurd hcon hxa
      · exact pair_sublist_of_mem ((mem_ins cmp).2 (Or.inr haS)) hbU'

/-- The inner scan of sortSubset realises exactly the abstract insertion step:
either no sorted node compares strictly greater (state unchanged, inserted
false), or the node is inserted before the first such node. -/
theorem scanPos_spec (cmp : Nat → Nat → Int) (node tmpS : Nat) :
    ∀ (S2 : List Nat) (sfuel : Nat) (h : Heap) (ll : LinkedList) (Pre T : List Nat),
      Represents h ll (Pre ++ S2 ++ T) →
      node ∉ Pre ++ S2 ++ T →
      S2.length + 1 ≤ sfuel →
      ((∀ a ∈ S2, ¬ cmp node a < 0) ∧
        LinkedList.scanPos cmp node T.head? tmpS sfuel h ll ((S2 ++ T).head?) =
          some (h, ll, tmpS, false)) ∨
      (∃ A x B, S2 = A ++ x :: B ∧ (∀ a ∈ A, ¬ cmp node a < 0) ∧ cmp node x < 0 ∧
        LinkedList.scanPos cmp node T.head? tmpS sfuel h ll ((S2 ++ T).head?) =
          some ((LinkedList.insertBefore h ll x node).1,
            (LinkedList.insertBefore h ll x node).2,
            (if x = tmpS then node else tmpS), true)) := by
  intro S2
  induction S2 with
  | nil =>
    intro sfuel h ll Pre T _ _ hfuel
    left
    obtain ⟨w, rfl⟩ : ∃ w, sfuel = w + 1 := ⟨sfuel - 1, by omega⟩
    exact ⟨by simp, by simp [LinkedList.scanPos]⟩
  | cons x S2' ih =>
    intro sfuel h ll Pre T hr hn hfuel
    obtain ⟨w, rfl⟩ : ∃ w, sfuel = w + 1 := ⟨sfuel - 1, by omega⟩
    have hstop : (some x : Option Nat) ≠ T.head? := by
      cases hT : T with
      | nil => simp
      | cons t T' =>
        simp only [List.head?_cons, Ne, Option.some_inj]
        intro he
        have hnd := hr.nodup
        rw [List.nodup_append] at hnd
        refine hnd.2.2 (List.mem_append_right Pre (List.mem_cons_self x S2')) ?_
        rw [hT]
        exact List.mem_cons.2 (Or.inl he)
    by_cases hc : cmp node x < 0
    · right
      refine ⟨[], x, S2', rfl, by simp, hc, ?_⟩
      simp only [List.cons_append, List.head?_cons, LinkedList.scanPos, if_neg hstop,
        if_pos hc]
    · have hnext : (h x).next = (S2' ++ T).head? := by
        have hre : Pre ++ (x :: S2') ++ T = Pre ++ x :: (S2' ++ T) := by simp
        exact rep_next (X := Pre) (Y := S2' ++ T) (by rw [← hre]; exact hr)
      have hr' : Represents h ll ((Pre ++ [x]) ++ S2' ++ T) := by
        have hre : (Pre ++ [x]) ++ S2' ++ T = Pre ++ (x :: S2') ++ T := by simp
        rw [hre]; exact hr
      have hn' : node ∉ (Pre ++ [x]) ++ S2' ++ T := by
        intro hm
        apply hn
        have hre : (Pre ++ [x]) ++ S2' ++ T = Pre ++ (x :: S2') ++ T := by simp
        rw [← hre]
        exact hm
      have hf' : S2'.length + 1 ≤ w := by
        simp only [List.length_cons] at hfuel
        omega
      rcases ih w h ll (Pre ++ [x]) T hr' hn' hf' with ⟨hall, heq⟩ | ⟨A, y, B, hdec, hA, hy, heq⟩
      · left
        refine ⟨?_, ?_⟩
        · intro a ha
          rcases List.mem_cons.1 ha with he | hm
          · subst he; exact hc
          · exact hall a hm
        · simp only [List.cons_append, List.head?_cons, LinkedList.scanPos, if_neg hstop,
            if_neg hc]
          rw [hnext]
          exact heq
      · right
        refine ⟨x :: A, y, B, by rw [hdec, List.cons_append], ?_, hy, ?_⟩
        · intro a ha
          rcases List.mem_cons.1 ha with he | hm
          · subst he; exact hc
          · exact hA a hm
        · simp only [List.cons_append, List.head?_cons, LinkedList.scanPos, if_neg hstop,
            if_neg hc]
          rw [hnext]
          exact heq

theorem nodup_left {A B : List Nat} (h : (A ++ B).Nodup) : A.Nodup :=
  (List.nodup_append.1 h).1

theorem nodup_right {A B : List Nat} (h : (A ++ B).Nodup) : B.Nodup :=
  (List.nodup_append.1 h).2.1

theorem ins_head_found (cmp : Nat → Nat → Int) {u x tmpS : Nat} {A B : List Nat}
    (hA : ∀ a ∈ A, ¬ cmp u a < 0) (hx : cmp u x < 0)
    (hnd : (A ++ x :: B).Nodup) (hhead : (A ++ x :: B).head? = some tmpS) :
    (ins cmp u (A ++ x :: B)).head? = some (if x = tmpS then u else tmpS) := by
  rw [ins_eq_insert cmp u x A B hA hx]
  cases A with
  | nil =>
    simp only [List.nil_append, List.head?_cons, Option.some_inj] at hhead
    rw [if_pos hhead]
    rfl
  | cons a0 A' =>
    simp only [List.cons_append, List.head?_cons, Option.some_inj] at hhead
    have hxA : x ∉ a0 :: A' := (nodup_mid hnd).1
    have hxne : x ≠ tmpS := by
      intro he
      exact hxA (by rw [he, ← hhead]; exact List.mem_cons_self a0 A')
    rw [if_neg hxne, List.cons_append, List.head?_cons, hhead]

theorem ins_last_found (cmp : Nat → Nat → Int) {u x : Nat} {A B : List Nat}
    (hA : ∀ a ∈ A, ¬ cmp u a < 0) (hx : cmp u x < 0) :
    (ins cmp u (A ++ x :: B)).getLast? = (A ++ x :: B).getLast? := by
  rw [ins_eq_insert cmp u x A B hA hx,
    getLast?_append_right A (u :: x :: B) (by simp),
    getLast?_append_right A (x :: B) (by simp), List.getLast?_cons_cons]

theorem ins_length (cmp : Nat → Nat → Int) (u : Nat) (S : List Nat) :
    (ins cmp u S).length = S.length + 1 := by
  rw [(ins_perm cmp u S).length_eq]
  rfl

/-- The do/while loop of sortSubset refines the abstract insertion fold: with
the sorted segment S at the front of the range and the unprocessed suffix U,
the loop terminates with the list rearranged to insFold cmp S U (in place,
between P and Q) and returns that segment's first and last nodes. -/
theorem sortLoop_spec (cmp : Nat → Nat → Int) (endN : Nat) :
    ∀ (U : List Nat) (fuel : Nat) (h : Heap) (ll : LinkedList) (P S Q : List Nat)
      (sfuel tmpS tmpE : Nat),
      Represents h ll (P ++ S ++ U ++ Q) →
      S ≠ [] →
      S.head? = some tmpS → S.getLast? = some tmpE →
      U.getLast? = some endN →
      U.length ≤ fuel →
      (P ++ S ++ U ++ Q).length + 1 ≤ sfuel →
      ∃ h' ll' s' e',
        LinkedList.sortLoop cmp endN sfuel fuel h ll tmpS tmpE U.head? =
          some (h', ll', s', e') ∧
        (insFold cmp S U).head? = some s' ∧
        (insFold cmp S U).getLast? = some e' ∧
        Represents h' ll' (P ++ insFold cmp S U ++ Q) := by
  intro U
  induction U with
  | nil =>
    intro fuel h ll P S Q sfuel tmpS tmpE _ _ _ _ hlastU _ _
    simp at hlastU
  | cons u U' ih =>
    intro fuel h ll P S Q sfuel tmpS tmpE hr hSne hheadS hlastS hlastU hfuel hsfuel
    obtain ⟨f, rfl⟩ : ∃ f, fuel = f + 1 := by
      cases fuel with
      | zero => simp at hfuel
      | succ f => exact ⟨f, rfl⟩
    have hPSne : P ++ S ≠ ([] : List Nat) := by
      intro he
      exact hSne (List.append_eq_nil.1 he).2
    have hassoc1 : P ++ S ++ (u :: U') ++ Q = (P ++ S) ++ u :: (U' ++ Q) := by simp
    have hrA : Represents h ll ((P ++ S) ++ u :: (U' ++ Q)) := by
      rw [← hassoc1]; exact hr
    have hnextu : (h u).next = (U' ++ Q).head? := rep_next hrA
    obtain ⟨h1, ll1, heqrem, _, _, hclear1, hwf⟩ := remove_spec hrA
    have hrep1 : Represents h1 ll1 ((P ++ S) ++ (U' ++ Q)) := hwf hPSne
    have hnotin : u ∉ (P ++ S) ++ (U' ++ Q) := by
      obtain ⟨h1', h2', _⟩ := nodup_mid hrA.nodup
      intro hm
      rcases List.mem_append.1 hm with hm1 | hm2
      · exact h1' hm1
      · exact h2' hm2
    have hUnd : (u :: U').Nodup := nodup_right (nodup_left hr.nodup)
    have hSnd : S.Nodup := nodup_right (nodup_left (nodup_left hr.nodup))
    have hsfuelS : S.length + 1 ≤ sfuel := by
      simp only [List.length_append, List.length_cons] at hsfuel
      omega
    have hscan := scanPos_spec cmp u tmpS S sfuel h1 ll1 P (U' ++ Q) hrep1 hnotin hsfuelS
    have hposarg : ((S ++ (U' ++ Q)).head?) = some tmpS := by
      rw [head?_append_left _ hSne, hheadS]
    rw [hposarg] at hscan
    rcases hscan with ⟨hall, heq⟩ | ⟨A, x, B, hdec, hA, hx, heq⟩
    · -- node not less than any sorted node: goes to the end of the segment
      have hins : ins cmp u S = S ++ [u] := ins_eq_append cmp u S hall
      have hheadins : (ins cmp u S).head? = some tmpS := by
        rw [hins, head?_append_left _ hSne, hheadS]
      have hlastins : (ins cmp u S).getLast? = some u := by
        rw [hins, getLast?_concat_nat]
      cases U' with
      | nil =>
        have hendu : u = endN := by
          simp only [List.getLast?_singleton, Option.some_inj] at hlastU
          exact hlastU
        cases Q with
        | nil =>
          have hrepPS : Represents h1 ll1 (P ++ S) := by
            have he : (P ++ S) ++ (([] : List Nat) ++ []) = P ++ S := by simp
            rw [← he]; exact hrep1
          have hprevu : (h1 u).prev = none := by rw [hclear1]
          have hnextu1 : (h1 u).next = none := by rw [hclear1]
          have hnotinPS : u ∉ P ++ S := fun hm => hnotin (List.mem_append_left _ hm)
          have happ := append_rep hrepPS hnotinPS hprevu hnextu1
          simp only [List.nil_append, List.head?_nil] at heq
          simp only [List.head?_cons, LinkedList.sortLoop, hnextu, heqrem, heq,
            List.nil_append, List.head?_nil, Bool.false_eq_true, if_false,
            if_pos hendu]
          refine ⟨_, _, tmpS, u, rfl, ?_, ?_, ?_⟩
          · exact hheadins
          · exact hlastins
          · show Represents _ _ (P ++ ins cmp u S ++ [])
            rw [hins]
            have he2 : P ++ (S ++ [u]) ++ ([] : List Nat) = (P ++ S) ++ [u] := by simp
            rw [he2]
            exact happ
        | cons q Q' =>
          have hrepQ : Represents h1 ll1 ((P ++ S) ++ q :: Q') := hrep1
          have hnotinQ : u ∉ (P ++ S) ++ q :: Q' := hnotin
          have hib := insertBefore_rep hrepQ hnotinQ
          simp only [List.nil_append, List.head?_cons] at heq
          simp only [List.head?_cons, LinkedList.sortLoop, hnextu, heqrem, heq,
            List.nil_append, Bool.false_eq_true, if_false, if_pos hendu]
          refine ⟨_, _, tmpS, u, rfl, ?_, ?_, ?_⟩
          · exact hheadins
          · exact hlastins
          · show Represents _ _ (P ++ ins cmp u S ++ (q :: Q'))
            rw [hins]
            have he2 : P ++ (S ++ [u]) ++ (q :: Q') = (P ++ S) ++ u :: q :: Q' := by
              simp
            rw [he2]
            exact hib
      | cons u2 U'' =>
        have hlastU' : (u2 :: U'').getLast? = some endN := by
          rw [List.getLast?_cons_cons] at hlastU
          exact hlastU
        have hune : u ≠ endN := by
          have hmem : endN ∈ u2 :: U'' := mem_of_getLast? hlastU'
          rw [List.nodup_cons] at hUnd
          exact (ne_of_memnot hmem hUnd.1).symm
        have hrepC : Represents h1 ll1 ((P ++ S) ++ u2 :: (U'' ++ Q)) := hrep1
        have hnotinC : u ∉ (P ++ S) ++ u2 :: (U'' ++ Q) := hnotin
        have hib := insertBefore_rep hrepC hnotinC
        have hassoc4 : (P ++ S) ++ u :: u2 :: (U'' ++ Q)
            = P ++ ins cmp u S ++ (u2 :: U'') ++ Q := by
          rw [hins]; simp
        rw [hassoc4] at hib
        obtain ⟨h', ll', s', e', heq', hh', hl', hrep'⟩ :=
          ih f (LinkedList.insertBefore h1 ll1 u2 u).1 (LinkedList.insertBefore h1 ll1 u2 u).2
            P (ins cmp u S) Q sfuel tmpS u hib (ins_ne_nil cmp u S) hheadins hlastins
            hlastU'
            (by simp only [List.length_cons] at hfuel ⊢; omega)
            (by
              simp only [List.length_append, List.length_cons, ins_length] at hsfuel ⊢
              omega)
        refine ⟨h', ll', s', e', ?_, hh', hl', hrep'⟩
        simp only [List.head?_cons] at heq'
        simp only [List.cons_append, List.head?_cons] at heq
        simp only [List.head?_cons, LinkedList.sortLoop, hnextu, heqrem, heq,
          List.cons_append, Bool.false_eq_true, if_false, if_neg hune]
        exact heq'
    · -- node inserted before the first strictly greater sorted node
      have hins : ins cmp u S = A ++ u :: x :: B := by
        rw [hdec]
        exact ins_eq_insert cmp u x A B hA hx
      have hassoc2 : P ++ S ++ (U' ++ Q) = (P ++ A) ++ x :: (B ++ (U' ++ Q)) := by
        rw [hdec]; simp
      have hrep2 : Represents h1 ll1 ((P ++ A) ++ x :: (B ++ (U' ++ Q))) := by
        rw [← hassoc2]
        exact hrep1
      have hnotin2 : u ∉ (P ++ A) ++ x :: (B ++ (U' ++ Q)) := by
        rw [← hassoc2]
        exact hnotin
      have hrepIB := insertBefore_rep hrep2 hnotin2
      have hassoc3 : (P ++ A) ++ u :: x :: (B ++ (U' ++ Q))
          = P ++ ins cmp u S ++ U' ++ Q := by
        rw [hins]; simp
      rw [hassoc3] at hrepIB
      have hheadins : (ins cmp u S).head? = some (if x = tmpS then u else tmpS) := by
        rw [hdec]
        exact ins_head_found cmp hA hx (hdec ▸ hSnd) (hdec ▸ hheadS)
      have hlastins : (ins cmp u S).getLast? = some tmpE := by
        rw [hdec, ins_last_found cmp hA hx, ← hdec]
        exact hlastS
      cases U' with
      | nil =>
        have hendu : u = endN := by
          simp only [List.getLast?_singleton, Option.some_inj] at hlastU
          exact hlastU
        simp only [List.nil_append, List.head?_nil] at heq
        simp only [List.head?_cons, LinkedList.sortLoop, hnextu, heqrem, heq,
          List.nil_append, List.head?_nil, if_true, if_pos hendu]
        refine ⟨_, _, (if x = tmpS then u else tmpS), tmpE, rfl, ?_, ?_, ?_⟩
        · exact hheadins
        · exact hlastins
        · show Represents _ _ (P ++ ins cmp u S ++ Q)
          have he2 : P ++ ins cmp u S ++ ([] : List Nat) ++ Q = P ++ ins cmp u S ++ Q := by
            simp
          rw [← he2]
          exact hrepIB
      | cons u2 U'' =>
        have hlastU' : (u2 :: U'').getLast? = some endN := by
          rw [List.getLast?_cons_cons] at hlastU
          exact hlastU
        have hune : u ≠ endN := by
          have hmem : endN ∈ u2 :: U'' := mem_of_getLast? hlastU'
          rw [List.nodup_cons] at hUnd
          exact (ne_of_memnot hmem hUnd.1).symm
        obtain ⟨h', ll', s', e', heq', hh', hl', hrep'⟩ :=
          ih f (LinkedList.insertBefore h1 ll1 x u).1 (LinkedList.insertBefore h1 ll1 x u).2
            P (ins cmp u S) Q sfuel (if x = tmpS then u else tmpS) tmpE hrepIB
            (ins_ne_nil cmp u S) hheadins hlastins hlastU'
            (by simp only [List.length_cons] at hfuel ⊢; omega)
            (by
              simp only [List.length_append, List.length_cons, ins_length] at hsfuel ⊢
              omega)
        refine ⟨h', ll', s', e', ?_, hh', hl', hrep'⟩
        simp only [List.head?_cons] at heq'
        simp only [List.cons_append, List.head?_cons] at heq
        simp only [List.head?_cons, LinkedList.sortLoop, hnextu, heqrem, heq,
          List.cons_append, if_true, if_neg hune]
        exact heq'

/-- sortSubset refines the abstract fold over the whole closed range. -/
theorem sortSubset_spec (cmp : Nat → Nat → Int) {h : Heap} {ll : LinkedList}
    {P R Q : List Nat} {start endN : Nat} {sfuel fuel : Nat}
    (hr : Represents h ll (P ++ R ++ Q))
    (hhead : R.head? = some start) (hlast : R.getLast? = some endN)
    (hfuel : R.length ≤ fuel) (hsfuel : (P ++ R ++ Q).length + 1 ≤ sfuel) :
    ∃ h' ll' s' e',
      LinkedList.sortSubset cmp h ll start endN sfuel fuel = some (h', ll', s', e') ∧
      (insFold cmp [start] R.tail).head? = some s' ∧
      (insFold cmp [start] R.tail).getLast? = some e' ∧
      Represents h' ll' (P ++ insFold cmp [start] R.tail ++ Q) ∧
      (start = endN → h' = h ∧ ll' = ll ∧ s' = start ∧ e' = endN) := by
  cases R with
  | nil => simp at hhead
  | cons r0 U =>
    rw [List.head?_cons, Option.some_inj] at hhead
    have hs : start = r0 := hhead.symm
    subst hs
    have hRnd : (start :: U).Nodup := nodup_right (nodup_left hr.nodup)
    by_cases hse : start = endN
    · have hU : U = [] := by
        cases hU : U with
        | nil => rfl
        | cons v V =>
          rw [hU, List.getLast?_cons_cons] at hlast
          have hmem : endN ∈ v :: V := mem_of_getLast? hlast
          rw [List.nodup_cons, hU] at hRnd
          exact absurd (hse ▸ hmem) hRnd.1
      subst hU
      simp only [LinkedList.sortSubset, if_pos hse]
      refine ⟨h, ll, start, endN, rfl, rfl, ?_, ?_, fun _ => ⟨rfl, rfl, rfl, rfl⟩⟩
      · show ([start] : List Nat).getLast? = some endN
        rw [← hse]
        rfl
      · show Represents h ll (P ++ [start] ++ Q)
        exact hr
    · have hU : U ≠ [] := by
        intro hU
        rw [hU, List.getLast?_singleton, Option.some_inj] at hlast
        exact hse hlast
      have hlastU : U.getLast? = some endN := by
        cases hUc : U with
        | nil => exact absurd hUc hU
        | cons v V =>
          rw [hUc, List.getLast?_cons_cons] at hlast
          exact hlast
      have hassoc : P ++ (start :: U) ++ Q = P ++ [start] ++ U ++ Q := by simp
      have hr' : Represents h ll (P ++ [start] ++ U ++ Q) := by
        rw [← hassoc]; exact hr
      have hnexts : (h start).next = (U ++ Q).head? := by
        have hre : P ++ (start :: U) ++ Q = P ++ start :: (U ++ Q) := by simp
        exact rep_next (X := P) (Y := U ++ Q) (by rw [← hre]; exact hr)
      obtain ⟨h', ll', s', e', heq, hh, hl, hrep⟩ :=
        sortLoop_spec cmp endN U fuel h ll P [start] Q sfuel start start hr'
          (by simp) rfl rfl hlastU
          (by simp only [List.length_cons] at hfuel; omega)
          (by
            simp only [List.length_append, List.length_cons, List.length_nil] at hsfuel ⊢
            omega)
      refine ⟨h', ll', s', e', ?_, hh, hl, ?_, fun hc => absurd hc hse⟩
      · simp only [LinkedList.sortSubset, if_neg hse, hnexts]
        cases hUc : U with
        | nil => exact absurd hUc hU
        | cons v V =>
          subst hUc
          simp only [List.cons_append, List.head?_cons] at heq ⊢
          exact heq
      · show Represents h' ll' (P ++ insFold cmp [start] U ++ Q)
        exact hrep

/-- One applyTransform traversal with the replacement hook rewrites the chain
done ++ rest into done ++ rest.map f, preserving all invariants. -/
theorem applyVisit_replace (f : Nat → Nat) :
    ∀ (rest done : List Nat) (h : Heap) (ll : LinkedList),
      Represents h ll (done ++ rest) →
      ((done ++ rest) ++ rest.map f).Nodup →
      Represents (LinkedList.applyVisit (replacementHook f) rest.length h ll rest.head?).1
        (LinkedList.applyVisit (replacementHook f) rest.length h ll rest.head?).2
        (done ++ rest.map f) := by
  intro rest
  induction rest with
  | nil =>
    intro done h ll hr _
    simp only [List.length_nil, List.head?_nil, LinkedList.applyVisit, List.map_nil]
    simp only [List.append_nil] at hr ⊢
    exact hr
  | cons n rest' ih =>
    intro done h ll hr hnd
    have hprevn : (h n).prev = done.getLast? := rep_prev hr
    have hnextn : (h n).next = rest'.head? := rep_next hr
    -- freshness facts
    have hfn_big : f n ∉ (done ++ n :: rest') := by
      rw [List.nodup_append] at hnd
      have hd := hnd.2
      rw [List.map_cons, List.nodup_cons] at hd
      intro hm
      exact hnd.2.2 hm (by rw [List.map_cons]; exact List.mem_cons_self _ _)
    have hfn_done : f n ∉ done := fun hm => hfn_big (List.mem_append_left _ hm)
    have hfn_rest : f n ∉ rest' := fun hm =>
      hfn_big (List.mem_append_right _ (List.mem_cons_of_mem n hm))
    have hfn_mapr : f n ∉ rest'.map f := by
      rw [List.nodup_append] at hnd
      have hd := hnd.2.1
      rw [List.map_cons, List.nodup_cons] at hd
      exact hd.1
    -- the hook step
    simp only [List.length_cons, List.head?_cons, LinkedList.applyVisit, replacementHook]
    set h1 := LinkedList.setLinks h (f n) (h n) with hh1
    have h1fn : h1 (f n) = h n := by rw [hh1, sl_eq]
    have h1other : ∀ m, m ≠ f n → h1 m = h m := by
      intro m hm
      rw [hh1, sl_ne _ _ _ _ hm]
    rw [h1fn, hprevn]
    -- the nodup payload for the recursive call
    have hnd' : (((done ++ [f n]) ++ rest') ++ rest'.map f).Nodup := by
      have hsub : ((done ++ rest') ++ (f n :: rest'.map f)).Sublist
          ((done ++ n :: rest') ++ ((n :: rest').map f)) := by
        rw [List.map_cons]
        exact List.Sublist.append
          (List.Sublist.append (List.Sublist.refl done)
            (List.Sublist.cons n (List.Sublist.refl rest')))
          (List.Sublist.refl _)
      have hnd1 : ((done ++ rest') ++ (f n :: rest'.map f)).Nodup :=
        List.Nodup.sublist hsub hnd
      have hperm : ((((done ++ [f n]) ++ rest') ++ rest'.map f)).Perm
          ((done ++ rest') ++ (f n :: rest'.map f)) := by
        have e1 : ((done ++ [f n]) ++ rest') ++ rest'.map f
            = done ++ (f n :: (rest' ++ rest'.map f)) := by simp
        have e2 : (done ++ rest') ++ (f n :: rest'.map f)
            = done ++ (rest' ++ f n :: rest'.map f) := by simp
        rw [e1, e2]
        exact List.Perm.append_left done List.perm_middle.symm
      exact (List.Perm.nodup_iff hperm).2 hnd1
    have hndmid : ((done ++ [f n]) ++ rest').Nodup := nodup_left hnd'
    have hchain := hr.chain
    rw [List.chain'_append] at hchain
    obtain ⟨hchD, hchNR, hbdry⟩ := hchain
    have hchR : List.Chain' (chainRel h) rest' := (List.chain'_cons'.1 hchNR).2
    rcases List.eq_nil_or_concat done with hdone | ⟨D, p, hdone⟩
    · subst hdone
      simp only [List.getLast?_nil, List.nil_append]
      rw [h1fn, hnextn]
      cases rest' with
      | nil =>
        simp only [List.head?_nil, List.length_nil, LinkedList.applyVisit, List.map_cons,
          List.map_nil, List.nil_append]
        refine ⟨rfl, rfl, List.nodup_singleton _, ?_, ?_, List.chain'_singleton _⟩
        · intro a ha
          rw [List.head?_cons, Option.some_inj] at ha
          subst ha
          rw [h1fn, hprevn]
          rfl
        · intro a ha
          rw [List.getLast?_singleton, Option.some_inj] at ha
          subst ha
          rw [h1fn, hnextn]
          rfl
      | cons m rest'' =>
        simp only [List.head?_cons]
        set h3 := LinkedList.setPrev h1 m (some (f n)) with hh3
        have hmfn : m ≠ f n := by
          intro he
          exact hfn_rest (he ▸ List.mem_cons_self m rest'')
        have h3fn : h3 (f n) = h n := by
          rw [hh3, sp_ne _ _ _ _ hmfn.symm, h1fn]
        have h3m : h3 m = ⟨some (f n), (h m).next⟩ := by
          rw [hh3, sp_eq, h1other m hmfn]
        have h3other : ∀ a, a ≠ f n → a ≠ m → h3 a = h a := by
          intro a h1a h2a
          rw [hh3, sp_ne _ _ _ _ h2a, h1other a h1a]
        rw [h3fn, hnextn]
        simp only [List.head?_cons]
        have hnR : (m :: rest'').Nodup := by
          have hmr := hndmid
          simp only [List.nil_append, List.singleton_append, List.nodup_cons] at hmr
          rw [List.nodup_cons]
          exact hmr.2
        have hrep3 : Represents h3 { head := some (f n), tail := ll.tail }
            (f n :: m :: rest'') := by
          have hllt : ll.tail = (m :: rest'').getLast? := by
            rw [hr.tail_eq]
            rfl
          refine ⟨rfl, ?_, ?_, ?_, ?_, ?_⟩
          · show ll.tail = _
            rw [hllt, List.getLast?_cons_cons]
          · have := hndmid
            simpa using this
          · intro a ha
            rw [List.head?_cons, Option.some_inj] at ha
            subst ha
            rw [h3fn, hprevn]
            rfl
          · intro a ha
            rw [List.getLast?_cons_cons] at ha
            have haR : a ∈ m :: rest'' := mem_of_getLast? ha
            have hafn : a ≠ f n := ne_of_memnot haR hfn_rest
            rcases List.mem_cons.1 haR with he | hm2
            · subst he
              rw [h3m]
              exact hr.next_last a (by
                show ((([] : List Nat) ++ n :: a :: rest'')).getLast? = some a
                simp only [List.nil_append, List.getLast?_cons_cons]
                rw [← List.getLast?_cons_cons (a := a)]
                exact ha)
            · have ham : a ≠ m := by
                rw [List.nodup_cons] at hnR
                exact ne_of_memnot hm2 hnR.1
              rw [h3other a hafn ham]
              exact hr.next_last a (by
                show ((([] : List Nat) ++ n :: m :: rest'')).getLast? = some a
                simp only [List.nil_append, List.getLast?_cons_cons]
                exact ha)
          · rw [List.chain'_cons]
            refine ⟨⟨?_, ?_⟩, ?_⟩
            · rw [h3fn, hnextn]; rfl
            · rw [h3m]
            · refine chain'_heap_congr _ ?_ ?_ hchR
              · intro a ha
                have haR : a ∈ m :: rest'' := List.dropLast_subset _ ha
                have hafn : a ≠ f n := ne_of_memnot haR hfn_rest
                by_cases ham : a = m
                · subst ham; rw [h3m]
                · rw [h3other a hafn ham]
              · intro a ha
                have haR' : a ∈ rest'' := ha
                have hafn : a ≠ f n :=
                  ne_of_memnot (List.mem_cons_of_mem m haR') hfn_rest
                have ham : a ≠ m := by
                  rw [List.nodup_cons] at hnR
                  exact ne_of_memnot haR' hnR.1
                rw [h3other a hafn ham]
        have := ih ([f n]) h3 { head := some (f n), tail := ll.tail }
          (by simpa using hrep3) (by simpa using hnd')
        simpa using this
    · rw [List.concat_eq_append] at hdone
      subst hdone
      have hDne : D ++ [p] ≠ ([] : List Nat) := by simp
      have hlastD : (D ++ [p]).getLast? = some p := getLast?_concat_nat D p
      simp only [hlastD]
      have hpD : p ∈ D ++ [p] := List.mem_append_right D (List.mem_cons_self p [])
      have hpfn : p ≠ f n := ne_of_memnot hpD hfn_done
      obtain ⟨hnD, hnR', hndr⟩ := nodup_mid hr.nodup
      have hdisjDR : ∀ a ∈ D ++ [p], a ∉ rest' := by
        rw [List.nodup_append] at hndr
        exact fun a ha har => hndr.2.2 ha har
      have hpD'' : p ∉ D := by
        have hx := nodup_left hr.nodup
        rw [List.nodup_append] at hx
        exact fun hm => hx.2.2 hm (List.mem_cons_self p [])
      set h2 := LinkedList.setNext h1 p (some (f n)) with hh2
      have h2fn : h2 (f n) = h n := by
        rw [hh2, sn_ne _ _ _ _ hpfn.symm, h1fn]
      have h2p : h2 p = ⟨(h p).prev, some (f n)⟩ := by
        rw [hh2, sn_eq, h1other p hpfn]
      have h2other : ∀ a, a ≠ f n → a ≠ p → h2 a = h a := by
        intro a h1a h2a
        rw [hh2, sn_ne _ _ _ _ h2a, h1other a h1a]
      rw [h2fn, hnextn]
      cases rest' with
      | nil =>
        simp only [List.head?_nil, List.length_nil, LinkedList.applyVisit, List.map_cons,
          List.map_nil]
        refine ⟨?_, ?_, ?_, ?_, ?_, ?_⟩
        · show ll.head = _
          have e1 : ll.head = (D ++ [p]).head? := by
            rw [hr.head_eq, head?_append_left _ hDne]
          rw [e1, head?_append_left _ hDne]
        · show some (f n) = _
          rw [getLast?_concat_nat]
        · simpa using hndmid
        · intro a ha
          rw [head?_append_left _ hDne] at ha
          have haD : a ∈ D ++ [p] := mem_of_head? ha
          have hafn : a ≠ f n := ne_of_memnot haD hfn_done
          have haprev : (h2 a).prev = (h a).prev := by
            by_cases hap : a = p
            · subst hap; rw [h2p]
            · rw [h2other a hafn hap]
          rw [haprev]
          refine hr.prev_head a ?_
          rw [head?_append_left _ hDne]
          exact ha
        · intro a ha
          rw [getLast?_concat_nat, Option.some_inj] at ha
          subst ha
          rw [h2fn, hnextn]
          rfl
        · rw [List.chain'_append]
          refine ⟨?_, List.chain'_singleton _, ?_⟩
          · refine chain'_heap_congr _ ?_ ?_ hchD
            · intro a ha
              rw [List.dropLast_concat] at ha
              have hafn : a ≠ f n := ne_of_memnot (List.mem_append_left _ ha) hfn_done
              rw [h2other a hafn (ne_of_memnot ha hpD'')]
            · intro a ha
              have haD : a ∈ D ++ [p] := List.mem_of_mem_tail ha
              have hafn : a ≠ f n := ne_of_memnot haD hfn_done
              by_cases hap : a = p
              · subst hap; rw [h2p]
              · rw [h2other a hafn hap]
          · intro xx hx yy hy
            rw [Option.mem_def, getLast?_concat_nat, Option.some_inj] at hx
            rw [Option.mem_def, List.head?_cons, Option.some_inj] at hy
            subst hx; subst hy
            refine ⟨by rw [h2p], ?_⟩
            rw [h2fn, hprevn, hlastD]
      | cons m rest'' =>
        simp only [List.head?_cons]
        set h3 := LinkedList.setPrev h2 m (some (f n)) with hh3
        have hmR : m ∈ m :: rest'' := List.mem_cons_self m rest''
        have hmfn : m ≠ f n := ne_of_memnot hmR hfn_rest
        have hmp : m ≠ p := by
          intro he
          subst he
          exact hdisjDR m hpD hmR
        have h3fn : h3 (f n) = h n := by
          rw [hh3, sp_ne _ _ _ _ hmfn.symm, h2fn]
        have h3m : h3 m = ⟨some (f n), (h m).next⟩ := by
          rw [hh3, sp_eq, h2other m hmfn hmp]
        have h3p : h3 p = ⟨(h p).prev, some (f n)⟩ := by
          rw [hh3, sp_ne _ _ _ _ hmp.symm, h2p]
        have h3other : ∀ a, a ≠ f n → a ≠ p → a ≠ m → h3 a = h a := by
          intro a h1a h2a h3a
          rw [hh3, sp_ne _ _ _ _ h3a, h2other a h1a h2a]
        have h3prev : ∀ a, a ≠ f n → a ≠ m → (h3 a).prev = (h a).prev := by
          intro a h1a h2a
          by_cases hap : a = p
          · subst hap; rw [h3p]
          · rw [h3other a h1a hap h2a]
        have h3next : ∀ a, a ≠ f n → a ≠ p → (h3 a).next = (h a).next := by
          intro a h1a h2a
          by_cases ham : a = m
          · subst ham; rw [h3m]
          · rw [h3other a h1a h2a ham]
        rw [h3fn, hnextn]
        simp only [List.head?_cons]
        have hnRR : (m :: rest'').Nodup := nodup_right hndr
        have hrep3 : Represents h3 ll (((D ++ [p]) ++ [f n]) ++ (m :: rest'')) := by
          have hD2ne : (D ++ [p]) ++ [f n] ≠ ([] : List Nat) := by simp
          refine ⟨?_, ?_, ?_, ?_, ?_, ?_⟩
          · have e1 : ll.head = (D ++ [p]).head? := by
              rw [hr.head_eq, head?_append_left _ hDne]
            rw [e1, head?_append_left _ hD2ne, head?_append_left _ hDne]
          · have e1 : ll.tail = (m :: rest'').getLast? := by
              rw [hr.tail_eq, getLast?_append_right _ (n :: m :: rest'') (by simp),
                List.getLast?_cons_cons]
            rw [e1, getLast?_append_right _ (m :: rest'') (by simp)]
          · exact hndmid
          · intro a ha
            rw [head?_append_left _ hD2ne, head?_append_left _ hDne] at ha
            have haD : a ∈ D ++ [p] := mem_of_head? ha
            have hafn : a ≠ f n := ne_of_memnot haD hfn_done
            have ham : a ≠ m := fun he => hdisjDR a haD (by rw [he]; exact hmR)
            rw [h3prev a hafn ham]
            refine hr.prev_head a ?_
            rw [head?_append_left _ hDne]
            exact ha
          · intro a ha
            rw [getLast?_append_right _ (m :: rest'') (by simp)] at ha
            have haR : a ∈ m :: rest'' := mem_of_getLast? ha
            have hafn : a ≠ f n := ne_of_memnot haR hfn_rest
            have hap : a ≠ p := fun he => hdisjDR p hpD (by rw [← he]; exact haR)
            rw [h3next a hafn hap]
            refine hr.next_last a ?_
            rw [getLast?_append_right _ (n :: m :: rest'') (by simp),
              List.getLast?_cons_cons]
            exact ha
          · rw [List.chain'_append]
            refine ⟨?_, ?_, ?_⟩
            · rw [List.chain'_append]
              refine ⟨?_, List.chain'_singleton _, ?_⟩
              · refine chain'_heap_congr _ ?_ ?_ hchD
                · intro a ha
                  rw [List.dropLast_concat] at ha
                  have haD : a ∈ D ++ [p] := List.mem_append_left _ ha
                  have hafn : a ≠ f n := ne_of_memnot haD hfn_done
                  have ham : a ≠ m := fun he => hdisjDR a haD (by rw [he]; exact hmR)
                  rw [h3other a hafn (ne_of_memnot ha hpD'') ham]
                · intro a ha
                  have haD : a ∈ D ++ [p] := List.mem_of_mem_tail ha
                  have hafn : a ≠ f n := ne_of_memnot haD hfn_done
                  have ham : a ≠ m := fun he => hdisjDR a haD (by rw [he]; exact hmR)
                  rw [h3prev a hafn ham]
              · intro xx hx yy hy
                rw [Option.mem_def, getLast?_concat_nat, Option.some_inj] at hx
                rw [Option.mem_def, List.head?_cons, Option.some_inj] at hy
                subst hx; subst hy
                refine ⟨by rw [h3p], ?_⟩
                rw [h3fn, hprevn, hlastD]
            · refine chain'_heap_congr _ ?_ ?_ hchR
              · intro a ha
                have haR : a ∈ m :: rest'' := List.dropLast_subset _ ha
                have hafn : a ≠ f n := ne_of_memnot haR hfn_rest
                have hap : a ≠ p := fun he => hdisjDR p hpD (by rw [← he]; exact haR)
                rw [h3next a hafn hap]
              · intro a ha
                have haR' : a ∈ rest'' := ha
                have hafn : a ≠ f n :=
                  ne_of_memnot (List.mem_cons_of_mem m haR') hfn_rest
                have ham : a ≠ m := by
                  rw [List.nodup_cons] at hnRR
                  exact ne_of_memnot haR' hnRR.1
                rw [h3prev a hafn ham]
            · intro xx hx yy hy
              rw [Option.mem_def, getLast?_concat_nat, Option.some_inj] at hx
              rw [Option.mem_def, List.head?_cons, Option.some_inj] at hy
              subst hx; subst hy
              refine ⟨?_, by rw [h3m]⟩
              rw [h3fn, hnextn]
              rfl
        have := ih ((D ++ [p]) ++ [f n]) h3 ll hrep3 (by simpa using hnd')
        simpa using this

theorem cexRepBase : Represents cexHeap cexLL [10, 11, 12] := by
  refine ⟨rfl, rfl, by decide, ?_, ?_, ?_⟩
  · intro a ha
    rw [List.head?_cons, Option.some_inj] at ha
    subst ha
    decide
  · intro a ha
    simp only [List.getLast?_cons_cons, List.getLast?_singleton, Option.some_inj] at ha
    subst ha
    decide
  · rw [List.chain'_cons, List.chain'_cons]
    exact ⟨⟨by decide, by decide⟩, ⟨by decide, by decide⟩, List.chain'_singleton 12⟩

theorem cexCmpTrans : ∀ a b c, cexCmp a b < 0 → cexCmp b c < 0 → cexCmp a c < 0 := by
  intro a b c h1 h2
  simp only [cexCmp] at *
  split_ifs at * <;> omega

theorem cexCmpIrr : ∀ a, ¬ cexCmp a a < 0 := by
  intro a
  simp only [cexCmp]
  split_ifs <;> omega

theorem cexCmpNegTrans : ∀ a b c, cexCmp a c < 0 → cexCmp a b < 0 ∨ cexCmp b c < 0 := by
  intro a b c h
  simp only [cexCmp] at *
  split_ifs at * <;> omega

/-- C2 (amended): for every represented list containing the closed range R
(from start to endN), and every comparator whose strict-precedes relation
(cmp a b < 0) is transitive, irreflexive and negatively transitive (a strict
weak order — total orders qualify; the counterexample shows arbitrary partial
orders do not), sortSubset sorts the range in place: traversing from the
returned start to the returned end yields a sequence that is non-decreasing
under cmp (no later node compares strictly before an earlier one), is a
permutation of R (no node created, destroyed or duplicated), keeps nodes that
compare as equivalent under cmp in their input order, and whose returned
boundary nodes are members of R; when start = endN the call returns
immediately without mutating the list. -/
theorem c2_sortSubset_swo_correct (cmp : Nat → Nat → Int) (h : Heap) (ll : LinkedList)
    (P R Q : List Nat) (start endN : Nat) (sfuel fuel wfuel : Nat)
    (hr : Represents h ll (P ++ R ++ Q))
    (hhead : R.head? = some start) (hlast : R.getLast? = some endN)
    (htr : ∀ a b c, cmp a b < 0 → cmp b c < 0 → cmp a c < 0)
    (hirr : ∀ a, ¬ cmp a a < 0)
    (hnt : ∀ a b c, cmp a c < 0 → cmp a b < 0 ∨ cmp b c < 0)
    (hfuel : R.length ≤ fuel) (hsfuel : (P ++ R ++ Q).length + 1 ≤ sfuel)
    (hwfuel : R.length ≤ wfuel) :
    ∃ h' ll' s' e' out,
      LinkedList.sortSubset cmp h ll start endN sfuel fuel = some (h', ll', s', e') ∧
      LinkedList.walkTo h' e' wfuel s' = some out ∧
      out.Perm R ∧
      out.Pairwise (fun a b => ¬ cmp b a < 0) ∧
      (∀ a b, ¬ cmp a b < 0 → ¬ cmp b a < 0 →
        [a, b].Sublist R → [a, b].Sublist out) ∧
      s' ∈ R ∧ e' ∈ R ∧
      (start = endN → h' = h ∧ ll' = ll ∧ s' = start ∧ e' = endN) := by
  cases R with
  | nil => simp at hhead
  | cons r0 t =>
    rw [List.head?_cons, Option.some_inj] at hhead
    have hs : start = r0 := hhead.symm
    subst hs
    obtain ⟨h', ll', s', e', heq, hh, hl, hrep, hdeg⟩ :=
      sortSubset_spec cmp hr rfl hlast hfuel hsfuel
    have houtperm : (insFold cmp [start] t).Perm (start :: t) := insFold_perm cmp t [start]
    have houtlen : (insFold cmp [start] t).length = (start :: t).length := houtperm.length_eq
    have hwalk := walkTo_spec (insFold cmp [start] t) P Q s' e' wfuel hrep hh hl
      (by rw [houtlen]; exact hwfuel)
    refine ⟨h', ll', s', e', insFold cmp [start] t, heq, hwalk, houtperm, ?_, ?_, ?_, ?_,
      hdeg⟩
    · exact pairwise_insFold cmp htr hirr t [start] (List.pairwise_singleton _ _)
    · intro a b hab hba hsub
      exact stable_insFold cmp htr hirr hnt t [start] (List.pairwise_singleton _ _)
        a b hab hba hsub
    · exact houtperm.mem_iff.1 (mem_of_head? hh)
    · exact houtperm.mem_iff.1 (mem_of_getLast? hl)

theorem c2_sortSubset_swo_correct_witness :
    ∃ h' ll' s' e' out,
      LinkedList.sortSubset cexCmp cexHeap cexLL 10 12 20 10 = some (h', ll', s', e') ∧
      LinkedList.walkTo h' e' 10 s' = some out ∧
      out.Perm [10, 11, 12] ∧
      out.Pairwise (fun a b => ¬ cexCmp b a < 0) ∧
      (∀ a b, ¬ cexCmp a b < 0 → ¬ cexCmp b a < 0 →
        [a, b].Sublist [10, 11, 12] → [a, b].Sublist out) ∧
      s' ∈ [10, 11, 12] ∧ e' ∈ [10, 11, 12] ∧
      (10 = 12 → h' = cexHeap ∧ ll' = cexLL ∧ s' = 10 ∧ e' = 12) :=
  c2_sortSubset_swo_correct cexCmp cexHeap cexLL [] [10, 11, 12] [] 10 12 20 10 10
    cexRepBase rfl rfl cexCmpTrans cexCmpIrr cexCmpNegTrans (by decide) (by decide)
    (by decide)

/-- C2 as stated is false: for the comparator cexCmpTie — a transitive and
irreflexive strict order under which 11 and 12 compare equal (0 both ways) —
sorting the whole range [10, 11, 12] produces the traversal [12, 10, 11], in
which the equal-comparing pair 11, 12 has lost its relative input order. -/
theorem c2_counterexample :
    (∀ a b c, cexCmpTie a b < 0 → cexCmpTie b c < 0 → cexCmpTie a c < 0) ∧
    (∀ a, ¬ cexCmpTie a a < 0) ∧
    cexCmpTie 11 12 = 0 ∧ cexCmpTie 12 11 = 0 ∧
    [11, 12].Sublist [10, 11, 12] ∧
    (∃ h' ll', LinkedList.sortSubset cexCmpTie cexHeap cexLL 10 12 20 10 =
        some (h', ll', 12, 11) ∧
      LinkedList.walkTo h' 11 10 12 = some [12, 10, 11]) ∧
    ¬ [11, 12].Sublist [12, 10, 11] := by
  refine ⟨?_, ?_, rfl, rfl, by decide, ⟨_, _, rfl, rfl⟩, by decide⟩
  · intro a b c h1 h2
    simp only [cexCmpTie] at *
    split_ifs at * <;> omega
  · intro a
    simp only [cexCmpTie]
    split_ifs <;> omega

/-- C1: the claimed invariant is violated by the code.  Running the operation
sequence append 0; append 1; remove 0 (all preconditions met: both nodes
fresh, the removed node a current member) leaves a non-empty list whose head
is node 1 while node 1's prev link still points at the removed node 0 — the
head-removal path of remove never clears the new head's prev pointer, so
head.prev = null fails after the third operation. -/
theorem c1_remove_head_breaks_invariant :
    ∃ h' ll', LinkedList.remove c1St2.1 c1St2.2 0 = some (h', ll', some 1) ∧
      ll'.head = some 1 ∧ ll'.tail = some 1 ∧ (h' 1).prev = some 0 := by
  exact ⟨_, _, rfl, rfl, rfl, rfl⟩

/-- C5: on a represented list, remove(node) returns the node that was
node.next immediately before the removal (null when the node was the tail),
and re-derives the head and tail fields correctly in all four cases — the
decomposition X ++ node :: Y covers head (X = []), tail (Y = []), sole member
(both empty) and interior nodes uniformly. -/
theorem c5_remove_resume_and_ends (h : Heap) (ll : LinkedList) (X Y : List Nat) (n : Nat)
    (hr : Represents h ll (X ++ n :: Y)) :
    ∃ h' ll', LinkedList.remove h ll n = some (h', ll', Y.head?) ∧
      ll'.head = (X ++ Y).head? ∧ ll'.tail = (X ++ Y).getLast? := by
  obtain ⟨h', ll', heq, hh, ht, _, _⟩ := remove_spec hr
  exact ⟨h', ll', heq, hh, ht⟩

theorem c5_remove_resume_and_ends_witness :
    ∃ h' ll', LinkedList.remove cexHeap cexLL 11 = some (h', ll', [12].head?) ∧
      ll'.head = ([10] ++ [12]).head? ∧ ll'.tail = ([10] ++ [12]).getLast? :=
  c5_remove_resume_and_ends cexHeap cexLL [10] [12] 11 cexRepBase

/-- C6 (amended): remove raises its assertion failure exactly when the node is
a non-head node with a null prev link, or a non-head node (with non-null
prev) that is a non-tail node with a null next link; a node that the head
field points at is never checked, so a corrupt head node with a null next
link and a different tail is removed without raising.  On a member node of a
well-formed list remove completes without raising. -/
theorem c6_remove_raise_condition (h : Heap) (ll : LinkedList) (n : Nat) :
    ((LinkedList.remove h ll n = none) ↔
      (ll.head ≠ some n ∧
        ((h n).prev = none ∨
          ((h n).prev ≠ none ∧ ll.tail ≠ some n ∧ (h n).next = none)))) ∧
    (∀ l, Represents h ll l → n ∈ l → (LinkedList.remove h ll n).isSome) := by
  constructor
  · by_cases hh : ll.head = some n
    · simp only [LinkedList.remove, if_pos hh]
      constructor
      · intro hcon; exact absurd hcon (by simp)
      · intro hcon; exact absurd hh hcon.1
    · simp only [LinkedList.remove, if_neg hh]
      cases hp : (h n).prev with
      | none =>
        constructor
        · intro _; exact ⟨hh, Or.inl rfl⟩
        · intro _; rfl
      | some p =>
        by_cases htl : ll.tail = some n
        · simp only [if_pos htl]
          constructor
          · intro hcon; exact absurd hcon (by simp)
          · rintro ⟨_, hc⟩
            rcases hc with hc | hc
            · exact absurd hc (by simp)
            · exact absurd htl hc.2.1
        · simp only [if_neg htl]
          have hnn : (LinkedList.setNext h p ((h n).next) n).next = (h n).next := by
            by_cases hpn : n = p
            · subst hpn; rw [sn_eq]
            · rw [sn_ne _ _ _ _ hpn]
          rw [hnn]
          cases hnx : (h n).next with
          | some q =>
            constructor
            · intro hcon; exact absurd hcon (by simp)
            · rintro ⟨_, hc⟩
              rcases hc with hc | hc
              · exact absurd hc (by simp)
              · exact absurd hc.2.2 (by simp)
          | none =>
            constructor
            · intro _; exact ⟨hh, Or.inr ⟨by simp, htl, rfl⟩⟩
            · intro _; rfl
  · intro l hrl hmem
    obtain ⟨X, Y, hdec⟩ := List.append_of_mem hmem
    subst hdec
    obtain ⟨h', ll', heq, _⟩ := remove_spec hrl
    rw [heq]
    rfl

theorem c6_remove_raise_condition_witness :
    (LinkedList.remove cexHeap cexLL 11).isSome :=
  (c6_remove_raise_condition cexHeap cexLL 11).2 [10, 11, 12] cexRepBase (by decide)

/-- C6 as stated is false: in the state c6Heap/c6LL, node 0 is a non-tail
node observed with a null next link (the claimed raise condition holds), yet
remove(0) takes the head branch and completes without raising. -/
theorem c6_counterexample :
    (c6LL.tail ≠ some 0 ∧ (c6Heap 0).next = none) ∧
    (LinkedList.remove c6Heap c6LL 0).isSome = true := by
  decide

/-- C7: prependList splices the other list's whole chain before this list's
head: afterwards this list represents exactly the other list's former node
sequence followed by this list's former node sequence; it is a no-op when the
other list is empty, and when this list is empty it simply adopts the other
list's head and tail fields. -/
theorem c7_prependList (h : Heap) (llA llB : LinkedList) (lA lB : List Nat)
    (hrA : Represents h llA lA) (hrB : Represents h llB lB)
    (hnd : (lB ++ lA).Nodup) :
    Represents (LinkedList.prependList h llA llB).1 (LinkedList.prependList h llA llB).2
      (lB ++ lA) ∧
    (lB = [] → LinkedList.prependList h llA llB = (h, llA)) ∧
    (lA = [] → LinkedList.prependList h llA llB =
      (h, { head := llB.head, tail := llB.tail })) := by
  refine ⟨prependList_rep hrA hrB hnd, ?_, ?_⟩
  · intro hB
    subst hB
    have ht : llB.tail = none := hrB.tail_eq
    simp [LinkedList.prependList, ht]
  · intro hA
    subst hA
    have hhA : llA.head = none := hrA.head_eq
    have htA : llA.tail = none := hrA.tail_eq
    rcases List.eq_nil_or_concat lB with hB | ⟨lB', ot, hB⟩
    · subst hB
      have ht : llB.tail = none := hrB.tail_eq
      have hhB : llB.head = none := hrB.head_eq
      simp only [LinkedList.prependList, ht]
      cases llA with
      | mk hd tl =>
        simp only [LinkedList.head, LinkedList.tail] at hhA htA
        subst hhA
        subst htA
        rw [hhB]
    · rw [List.concat_eq_append] at hB
      subst hB
      have ht : llB.tail = some ot := by rw [hrB.tail_eq, getLast?_concat_nat]
      obtain ⟨oh, hoh⟩ : ∃ oh, llB.head = some oh := by
        rw [hrB.head_eq]
        cases lB' with
        | nil => exact ⟨ot, rfl⟩
        | cons z zs => exact ⟨z, rfl⟩
      simp only [LinkedList.prependList, ht, hoh, hhA]

theorem c7_prependList_witness :
    Represents (LinkedList.prependList c7Heap c7A c7B).1
      (LinkedList.prependList c7Heap c7A c7B).2 ([5, 6] ++ [0, 1]) ∧
    (([5, 6] : List Nat) = [] → LinkedList.prependList c7Heap c7A c7B = (c7Heap, c7A)) ∧
    (([0, 1] : List Nat) = [] → LinkedList.prependList c7Heap c7A c7B =
      (c7Heap, { head := c7B.head, tail := c7B.tail })) :=
  c7_prependList c7Heap c7A c7B [0, 1] [5, 6]
    (by
      refine ⟨rfl, rfl, by decide, ?_, ?_, ?_⟩
      · intro a ha
        rw [List.head?_cons, Option.some_inj] at ha
        subst ha
        decide
      · intro a ha
        simp only [List.getLast?_cons_cons, List.getLast?_singleton, Option.some_inj] at ha
        subst ha
        decide
      · rw [List.chain'_cons]
        exact ⟨⟨by decide, by decide⟩, List.chain'_singleton 1⟩)
    (by
      refine ⟨rfl, rfl, by decide, ?_, ?_, ?_⟩
      · intro a ha
        rw [List.head?_cons, Option.some_inj] at ha
        subst ha
        decide
      · intro a ha
        simp only [List.getLast?_cons_cons, List.getLast?_singleton, Option.some_inj] at ha
        subst ha
        decide
      · rw [List.chain'_cons]
        exact ⟨⟨by decide, by decide⟩, List.chain'_singleton 6⟩)
    (by decide)

/-- C4: when the per-node visit hook returns, at every visited position, a
newly constructed node f n (fresh: not in the list, and distinct images)
whose prev/next links claim the old position, applyTransform yields a list of
the same length in which each original position's relative order is preserved
(the final chain is exactly l.map f) and the head/tail/prev/next invariants
hold afterward; traversal continues from each returned node's next link read
after relinking (this is the recursion structure of applyVisit itself). -/
theorem c4_applyTransform_replacement (f : Nat → Nat) (h : Heap) (ll : LinkedList)
    (l : List Nat) (hr : Represents h ll l) (hnd : (l ++ l.map f).Nodup) :
    ∃ h' ll',
      LinkedList.applyTransform ⟨none, some (replacementHook f)⟩ l.length h ll = (h', ll') ∧
      Represents h' ll' (l.map f) ∧ (l.map f).length = l.length := by
  have hmain := applyVisit_replace f l [] h ll (by simpa using hr) (by simpa using hnd)
  refine ⟨_, _, rfl, ?_, by simp⟩
  show Represents (LinkedList.applyVisit (replacementHook f) l.length h ll ll.head).1
    (LinkedList.applyVisit (replacementHook f) l.length h ll ll.head).2 (l.map f)
  rw [hr.head_eq]
  simpa using hmain

theorem c4_applyTransform_replacement_witness :
    ∃ h' ll',
      LinkedList.applyTransform ⟨none, some (replacementHook (fun n => n + 100))⟩
        ([0, 1] : List Nat).length c4Heap c4LL = (h', ll') ∧
      Represents h' ll' (([0, 1] : List Nat).map (fun n => n + 100)) ∧
      (([0, 1] : List Nat).map (fun n => n + 100)).length = ([0, 1] : List Nat).length :=
  c4_applyTransform_replacement (fun n => n + 100) c4Heap c4LL [0, 1]
    (by
      refine ⟨rfl, rfl, by decide, ?_, ?_, ?_⟩
      · intro a ha
        rw [List.head?_cons, Option.some_inj] at ha
        subst ha
        decide
      · intro a ha
        simp only [List.getLast?_cons_cons, List.getLast?_singleton, Option.some_inj] at ha
        subst ha
        decide
      · rw [List.chain'_cons]
        exact ⟨⟨by decide, by decide⟩, List.chain'_singleton 1⟩)
    (by decide)

/-- C3 as stated is false: lowering the example template produces an
element-start node whose flattened attribute sequence also contains the
bindings marker and the bound input's name after the static pair, so the
create list does not equal the claimed one. -/
theorem c3_counterexample :
    ∃ st, parseRoot c3pp c3Template = .ok st ∧
      st.create ≠ [CrNode.elementStart 0 "div" (some [.lit "class", .lit "a"]) none,
        CrNode.text 1 (some "hi"), CrNode.elementEnd 0] := by
  refine ⟨_, rfl, ?_⟩
  intro hcon
  simp [elementAttrs] at hcon

/-- C3 (amended): for the root template with one element div carrying the
static attribute class="a", the bound input id bound to x, and the child text
"hi", the create list is, in order, [element-start(id 0, "div",
attrs = [class, a, bindings-marker, id], no refs), text(id 1, "hi"),
element-end(id 0)] — the flattened attribute sequence carries the static
name/value pair first, then the marker, then the bound input's name — and the
update list is [property-binding(target 0, name "id", expr = lowered x)]. -/
theorem c3_lowering_example (pp : AstExpr → IrExprV) (x : AstExpr) :
    parseRoot pp [TmplNode.element "div" [⟨"class", "a"⟩] [⟨"id", x⟩] []
        [TmplNode.text "hi"]] =
      .ok { create := [CrNode.elementStart 0 "div"
              (some [.lit "class", .lit "a", .bindingsMarker, .lit "id"]) none,
            CrNode.text 1 (some "hi"), CrNode.elementEnd 0],
            update := [UpNode.property 0 "id" (pp x)],
            scope := 2 } := rfl

/-- C8: visitBoundText requires the binding's value, after unwrapping an
ASTWithSource envelope if present, to be an Interpolation: when it is, exactly
one text-interpolation node is appended to the update list, carrying each
sub-expression lowered through the preprocessor together with the literal
separator strings; any other shape raises the fatal lowering error. -/
theorem c8_visitBoundText (pp : AstExpr → IrExprV) (st : ConvSt) (v : AstExpr) :
    (∀ strs exprs, unwrapTop v = AstExpr.interpolation strs exprs →
      visitNode pp st (TmplNode.boundText v) =
        .ok { create := st.create ++ [CrNode.text st.scope none],
              update := st.update ++ [UpNode.textInterpolate st.scope (exprs.map pp) strs],
              scope := st.scope + 1 }) ∧
    ((∀ strs exprs, unwrapTop v ≠ AstExpr.interpolation strs exprs) →
      visitNode pp st (TmplNode.boundText v) =
        .error ("BoundText is not an interpolation expression?",
          { create := st.create ++ [CrNode.text st.scope none],
            update := st.update,
            scope := st.scope + 1 })) := by
  constructor
  · intro strs exprs hu
    simp only [visitNode, hu]
  · intro hne
    cases hv : unwrapTop v with
    | interpolation strs exprs => exact absurd hv (hne strs exprs)
    | withSource i => simp only [visitNode, hv]
    | otherExpr k => simp only [visitNode, hv]

theorem c8_visitBoundText_witness :
    (∀ strs exprs,
      unwrapTop (AstExpr.withSource (AstExpr.interpolation ["", ""] [AstExpr.otherExpr 3]))
        = AstExpr.interpolation strs exprs →
      visitNode c3pp { create := [], update := [], scope := 0 }
        (TmplNode.boundText
          (AstExpr.withSource (AstExpr.interpolation ["", ""] [AstExpr.otherExpr 3]))) =
        .ok { create := [CrNode.text 0 none],
              update := [UpNode.textInterpolate 0 (exprs.map c3pp) strs],
              scope := 1 }) ∧
    ((∀ strs exprs,
      unwrapTop (AstExpr.withSource (AstExpr.interpolation ["", ""] [AstExpr.otherExpr 3]))
        ≠ AstExpr.interpolation strs exprs) →
      visitNode c3pp { create := [], update := [], scope := 0 }
        (TmplNode.boundText
          (AstExpr.withSource (AstExpr.interpolation ["", ""] [AstExpr.otherExpr 3]))) =
        .error ("BoundText is not an interpolation expression?",
          { create := [CrNode.text 0 none], update := [], scope := 1 })) :=
  c8_visitBoundText c3pp { create := [], update := [], scope := 0 }
    (AstExpr.withSource (AstExpr.interpolation ["", ""] [AstExpr.otherExpr 3]))

/-- C9: on the error path of visitBoundText (the unwrapped value is not an
Interpolation), the lowering state carried by the error has already been
mutated: an id was allocated from the scope and a Text node with that id and
no static value was appended to the create list, while the update list is
untouched; the failure does not roll these changes back. -/
theorem c9_boundText_error_state (pp : AstExpr → IrExprV) (st : ConvSt) (v : AstExpr)
    (hne : ∀ strs exprs, unwrapTop v ≠ AstExpr.interpolation strs exprs) :
    visitNode pp st (TmplNode.boundText v) =
      .error ("BoundText is not an interpolation expression?",
        { create := st.create ++ [CrNode.text st.scope none],
          update := st.update,
          scope := st.scope + 1 }) := by
  cases hv : unwrapTop v with
  | interpolation strs exprs => exact absurd hv (hne strs exprs)
  | withSource i => simp only [visitNode, hv]
  | otherExpr k => simp only [visitNode, hv]

theorem c9_boundText_error_state_witness :
    visitNode c3pp { create := [], update := [], scope := 0 }
      (TmplNode.boundText (AstExpr.otherExpr 7)) =
      .error ("BoundText is not an interpolation expression?",
        { create := [CrNode.text 0 none], update := [], scope := 1 }) :=
  c9_boundText_error_state c3pp { create := [], update := [], scope := 0 }
    (AstExpr.otherExpr 7)
    (by intro strs exprs hcon; simp [unwrapTop] at hcon)

/-- C10: visitTemplate constructs the embedded-template node appended to the
parent's create list with tag name equal to the source template's tagName
when that string is non-empty, and with the literal fallback "ng-template"
when tagName is the empty string. -/
theorem c10_visitTemplate_tagname (pp : AstExpr → IrExprV) (st child : ConvSt)
    (tagName : String) (vars : List TmplVar) (refs : List TmplRef)
    (children : List TmplNode)
    (hchild : visitChildren pp { create := [], update := [], scope := 0 } children =
      .ok child) :
    visitNode pp st (TmplNode.template tagName vars refs children) =
      .ok { st with
        create := st.create ++ [CrNode.template st.scope
          (if tagName ≠ "" then tagName else "ng-template")
          child.create child.update (elementRefs refs st.scope)],
        scope := st.scope + 1 } ∧
    (tagName ≠ "" → (if tagName ≠ "" then tagName else "ng-template") = tagName) ∧
    (tagName = "" → (if tagName ≠ "" then tagName else "ng-template") = "ng-template") := by
  refine ⟨?_, ?_, ?_⟩
  · simp only [visitNode, hchild]
  · intro hne
    rw [if_pos hne]
  · intro he
    rw [if_neg (by simp [he])]

theorem c10_visitTemplate_tagname_witness :
    (visitNode c3pp { create := [], update := [], scope := 0 }
        (TmplNode.template "" [] [] []) =
      .ok { create := [CrNode.template 0
              (if ("" : String) ≠ "" then "" else "ng-template") [] []
              (elementRefs [] 0)],
            update := [], scope := 1 } ∧
      (("" : String) ≠ "" → (if ("" : String) ≠ "" then "" else "ng-template") = "") ∧
      (("" : String) = "" →
        (if ("" : String) ≠ "" then "" else "ng-template") = "ng-template")) :=
  c10_visitTemplate_tagname c3pp { create := [], update := [], scope := 0 }
    { create := [], update := [], scope := 0 } "" [] [] [] rfl
